import Mathlib

/-!
# Column-separator inference (`tabular/probabalisticSplit.go`)

A shallow embedding of the statistics helpers, Chauvenet's criterion and the
separator selector `getColumnRegex`, followed by theorems about them.

## Numbers

`float64` is modelled by `F64`: the IEEE special values NaN, -Inf, +Inf and, for
finite values, exact rationals.  The special-value rules of the arithmetic
(`0/0`, `x/0`, `Inf*0`, `Inf-Inf`, comparisons with NaN) follow IEEE 754 as Go
implements it.  Overflow and the sign of zero are not modelled.  Rounding is modelled only
where two computed values are compared with each other (`varianceRounded`, for the fallback of
`getColumnRegex`); elsewhere finite arithmetic is exact.
Go's `int` is modelled by `ℤ` (row lengths are far from the 64-bit range).

`math.Sqrt`, `math.Pi` and `math.Pow(math.E, y)` are library functions; their
special cases are written out from the Go documentation, their values on
ordinary finite arguments are the fields of `MathLib`.

## Failure

Indexing a slice out of range (a Go run-time panic) is modelled by `none` in the helpers
and by `Outcome.panic` in `getColumnRegex`, and `log.Fatal` by `Outcome.fatal`.

## The split primitive

`SeparateString`, `Table` and the regexp library are outside `probabalisticSplit.go`.  An
`Input` gives what they return on the text: the rows, which rows a separator matches, and
the cells of each row.
-/

namespace Tabular

/-! ## float64 -/

/-- Values of Go's `float64`: NaN, the two infinities, and finite values as exact rationals. -/
inductive F64 where
  | nan : F64
  | ninf : F64
  | fin (q : ℚ) : F64
  | pinf : F64
  deriving DecidableEq

namespace F64

/-- Conversion `float64(i)` of an `int`. -/
def ofInt (i : ℤ) : F64 := fin (i : ℚ)

/-- Unary minus. -/
def neg : F64 → F64
  | nan => nan
  | ninf => pinf
  | pinf => ninf
  | fin q => fin (-q)

/-- Addition `x + y`; `Inf + (-Inf)` is NaN. -/
def add : F64 → F64 → F64
  | nan, _ => nan
  | _, nan => nan
  | pinf, ninf => nan
  | ninf, pinf => nan
  | pinf, _ => pinf
  | _, pinf => pinf
  | ninf, _ => ninf
  | _, ninf => ninf
  | fin a, fin b => fin (a + b)

/-- Subtraction `x - y`. -/
def sub (x y : F64) : F64 := add x (neg y)

/-- An infinity of the sign of `q` times a positive infinity; NaN when `q = 0`. -/
def infTimes (q : ℚ) : F64 :=
  if q = 0 then nan else if 0 < q then pinf else ninf

/-- Multiplication `x * y`; `Inf * 0` is NaN. -/
def mul : F64 → F64 → F64
  | nan, _ => nan
  | _, nan => nan
  | fin a, fin b => fin (a * b)
  | fin a, pinf => infTimes a
  | fin a, ninf => infTimes (-a)
  | pinf, fin b => infTimes b
  | ninf, fin b => infTimes (-b)
  | pinf, pinf => pinf
  | ninf, ninf => pinf
  | pinf, ninf => ninf
  | ninf, pinf => ninf

/-- Division `x / y`: `0/0` and `Inf/Inf` are NaN, a nonzero finite value over
zero is an infinity (zero is taken as `+0`), a finite value over an infinity is zero. -/
def div : F64 → F64 → F64
  | nan, _ => nan
  | _, nan => nan
  | fin a, fin b => if b = 0 then infTimes a else fin (a / b)
  | fin _, pinf => fin 0
  | fin _, ninf => fin 0
  | pinf, fin b => if 0 ≤ b then pinf else ninf
  | ninf, fin b => if 0 ≤ b then ninf else pinf
  | pinf, pinf => nan
  | pinf, ninf => nan
  | ninf, pinf => nan
  | ninf, ninf => nan

/-- The comparison `x < y`; false whenever an operand is NaN. -/
def lt : F64 → F64 → Bool
  | nan, _ => false
  | _, nan => false
  | ninf, ninf => false
  | ninf, _ => true
  | _, ninf => false
  | pinf, _ => false
  | fin _, pinf => true
  | fin a, fin b => decide (a < b)

/-- The comparison `x <= y`; false whenever an operand is NaN. -/
def le : F64 → F64 → Bool
  | nan, _ => false
  | _, nan => false
  | ninf, _ => true
  | _, ninf => false
  | _, pinf => true
  | pinf, _ => false
  | fin a, fin b => decide (a ≤ b)

/-- The call `math.Pow(x, 2)`: NaN stays NaN, an infinity becomes `+Inf`, a finite value is squared. -/
def pow2 : F64 → F64
  | nan => nan
  | ninf => pinf
  | pinf => pinf
  | fin q => fin (q * q)

end F64

/-- Values of the Go math library on ordinary finite arguments. -/
structure MathLib where
  /-- The value of `math.Sqrt` at a positive finite argument. -/
  sqrtPos : ℚ → ℚ
  /-- The constant `math.Pi`. -/
  pi : ℚ
  /-- The value of `math.Pow(math.E, y)` at a nonzero finite `y`. -/
  expE : ℚ → ℚ

/-- The call `math.Sqrt(x)`: `Sqrt(+Inf) = +Inf`, `Sqrt(0) = 0`, `Sqrt(x < 0) = NaN`, `Sqrt(NaN) = NaN`. -/
def sqrt (M : MathLib) : F64 → F64
  | F64.nan => F64.nan
  | F64.ninf => F64.nan
  | F64.pinf => F64.pinf
  | F64.fin q => if q < 0 then F64.nan else if q = 0 then F64.fin 0 else F64.fin (M.sqrtPos q)

/-- The call `math.Pow(math.E, y)`: `Pow(x, NaN) = NaN`, `Pow(x, 0) = 1`,
`Pow(x, +Inf) = +Inf` and `Pow(x, -Inf) = 0` for `|x| > 1`. -/
def powE (M : MathLib) : F64 → F64
  | F64.nan => F64.nan
  | F64.ninf => F64.fin 0
  | F64.pinf => F64.pinf
  | F64.fin q => if q = 0 then F64.fin 1 else F64.fin (M.expE q)

/-! ## Statistics helpers -/

/-- The closure `sumInt` of `meanInt`. -/
def sumInt (data : List ℤ) : ℤ := data.foldl (fun sum i => sum + i) 0

/-- The function `meanInt`: `float64(sumInt(data)) / float64(len(data))`. -/
def meanInt (data : List ℤ) : F64 :=
  F64.div (F64.ofInt (sumInt data)) (F64.ofInt data.length)

/-- The closure `sumFloat` of `meanFloat`. -/
def sumFloat (data : List F64) : F64 := data.foldl (fun sum i => F64.add sum i) (F64.fin 0)

/-- The function `meanFloat`: `sumFloat(data) / float64(len(data))`. -/
def meanFloat (data : List F64) : F64 :=
  F64.div (sumFloat data) (F64.ofInt data.length)

/-- The function `getSquaredDifferences`: `(xbar - xn)^2` for each point, in order. -/
def getSquaredDifferences (data : List ℤ) : List F64 :=
  data.map (fun xn => F64.pow2 (F64.sub (meanInt data) (F64.ofInt xn)))

/-- The function `variance`. -/
def variance (data : List ℤ) : F64 := meanFloat (getSquaredDifferences data)

/-- The function `stdDev`. -/
def stdDev (M : MathLib) (data : List ℤ) : F64 := sqrt M (variance data)

/-- The function `normalDistribution`. -/
def normalDistribution (M : MathLib) (x mu sigma : F64) : F64 :=
  let coefficient := F64.div (F64.fin 1) (F64.mul sigma (sqrt M (F64.fin (2 * M.pi))))
  let exponent := F64.neg (F64.div (F64.pow2 (F64.sub x mu)) (F64.mul (F64.fin 2) (F64.pow2 sigma)))
  F64.mul coefficient (powE M exponent)

/-! ## float64 rounding, for the comparison of computed variances

The fallback of `getColumnRegex` compares the computed variances of the candidates with each
other, and candidates often have the same exact variance; there the outcome is decided by the
rounding of float64, so the variance it compares is modelled with the rounding of every
operation. -/

/-- The position of the highest bit of `n` (0 for `n` below 2), for `n` below `2^fuel`. -/
def log2Aux : ℕ → ℕ → ℕ
  | 0, _ => 0
  | fuel + 1, n => if n < 2 then 0 else log2Aux fuel (n / 2) + 1

/-- The rational nearest to `q` among the float64 values (round to nearest, ties to the even
mantissa of 53 bits), for `q` in the normal range of float64. -/
def roundFloat64 (q : ℚ) : ℚ :=
  if q = 0 then 0
  else
    let n := q.num.natAbs
    let d := q.den
    let a : ℤ := (log2Aux 2048 n : ℤ) - (log2Aux 2048 d : ℤ)
    let k : ℤ := if d * 2 ^ a.toNat ≤ n * 2 ^ (-a).toNat then a else a - 1
    let e : ℤ := k - 52
    let num := n * 2 ^ (-e).toNat
    let den := d * 2 ^ e.toNat
    let m := num / den
    let r := num % den
    let m' := if 2 * r < den then m else if den < 2 * r then m + 1 else if m % 2 = 0 then m else m + 1
    let v : ℚ := ((m' * 2 ^ e.toNat : ℕ) : ℚ) / ((2 ^ (-e).toNat : ℕ) : ℚ)
    if q < 0 then -v else v

/-- The float64 result of an arithmetic operation whose exact result is `x`. -/
def F64.rounded : F64 → F64
  | F64.fin q => F64.fin (roundFloat64 q)
  | x => x

/-- The function `meanInt` with the rounding of its division; the conversions of the sum and
of the length are exact below `2^53`. -/
def meanIntRounded (data : List ℤ) : F64 :=
  F64.rounded (F64.div (F64.ofInt (sumInt data)) (F64.ofInt data.length))

/-- The function `getSquaredDifferences` with the rounding of the subtraction and of the
square. -/
def getSquaredDifferencesRounded (data : List ℤ) : List F64 :=
  data.map (fun xn =>
    F64.rounded (F64.pow2 (F64.rounded (F64.sub (meanIntRounded data) (F64.ofInt xn)))))

/-- The closure `sumFloat` with the rounding of every addition. -/
def sumFloatRounded (data : List F64) : F64 :=
  data.foldl (fun sum i => F64.rounded (F64.add sum i)) (F64.fin 0)

/-- The function `meanFloat` with the rounding of its additions and of its division. -/
def meanFloatRounded (data : List F64) : F64 :=
  F64.rounded (F64.div (sumFloatRounded data) (F64.ofInt data.length))

/-- The function `variance` as float64 computes it: every arithmetic operation is rounded. -/
def varianceRounded (data : List ℤ) : F64 :=
  meanFloatRounded (getSquaredDifferencesRounded data)

/-! ## Extremum finder -/

/-- The comparator `maxFunc`: `x > y`. -/
def maxFunc (x y : F64) : Bool := F64.lt y x

/-- The comparator `minFunc`: `x < y`. -/
def minFunc (x y : F64) : Bool := F64.lt x y

/-- The loop of `extremaIndex`: `i` is the index of the head of the remaining
data, `extrema` and `idx` are the loop variables `extrema` and `extremaIndex`. -/
def extremaLoop (comparisonFunc : F64 → F64 → Bool) : List F64 → ℕ → F64 → ℕ → ℕ
  | [], _, _, idx => idx
  | datum :: rest, i, extrema, idx =>
    if comparisonFunc datum extrema then extremaLoop comparisonFunc rest (i + 1) datum i
    else extremaLoop comparisonFunc rest (i + 1) extrema idx

/-- The function `extremaIndex`. -/
def extremaIndex (comparisonFunc : F64 → F64 → Bool) (data : List F64) : ℕ :=
  match data with
  | [] => 0
  | d0 :: _ => extremaLoop comparisonFunc data 0 d0 0

/-! ## Chauvenet's criterion -/

/-- The closure `isOutlier` of `chauvenet`. -/
def isOutlier (M : MathLib) (x : F64) (data : List ℤ) : Bool :=
  let xbar := meanInt data
  let sigma := stdDev M data
  let probability := normalDistribution M x xbar sigma
  F64.lt probability (F64.div (F64.ofInt 1) (F64.ofInt (2 * (data.length : ℤ))))

/-- The function `chauvenet`; `none` is the run-time panic of `data[index]` out of range. -/
def chauvenet (M : MathLib) (data : List ℤ) : Option (List ℤ) :=
  let index := extremaIndex maxFunc (getSquaredDifferences data)
  match data[index]? with
  | none => none
  | some potentialOutlier =>
    if isOutlier M (F64.ofInt potentialOutlier) data then some (data.take index ++ data.drop (index + 1))
    else some data

/-! ## The selector `getColumnRegex` -/

/-- The four built-in column separators, in the order of `initialColSeps`. -/
inductive Regexp where
  | tabs : Regexp
  | fourWhitespaces : Regexp
  | twoPlusWhitespaces : Regexp
  | anyWhitespace : Regexp
  deriving DecidableEq

/-- The type `Table` of the package: rows of cells. -/
abbrev Table := List (List String)

/-- The text under analysis as the regexp library presents it to `getColumnRegex`. -/
structure Input where
  /-- The result of `rowSep.Split(str, -1)`. -/
  rows : List String
  /-- The result of `re.MatchString(row)`. -/
  matchString : Regexp → String → Bool
  /-- The cells into which a column separator splits one row. -/
  splitRow : Regexp → String → List String

/-- Modelled from the spec: `SeparateString`, the row/column split primitive of the
package, is not among the sources; the text is split into rows with the row separator and
each row into cells with the column separator. -/
def SeparateString (inp : Input) (colSep : Regexp) : Table :=
  inp.rows.map (inp.splitRow colSep)

/-- The list `initialColSeps`. -/
def initialColSeps : List Regexp :=
  [Regexp.tabs, Regexp.fourWhitespaces, Regexp.twoPlusWhitespaces, Regexp.anyWhitespace]

/-- The counting loop of the closure `matchesMost`. -/
def matchCount (inp : Input) (re : Regexp) (rows : List String) : ℕ :=
  rows.foldl (fun count row => if inp.matchString re row then count + 1 else count) 0

/-- The closure `matchesMost`: `count >= len(rows) / 2`, with integer division. -/
def matchesMost (inp : Input) (re : Regexp) (rows : List String) : Bool :=
  decide (matchCount inp re rows ≥ rows.length / 2)

/-- The closure `getRowLengths`. -/
def getRowLengths (table : Table) : List ℤ := table.map (fun row => (row.length : ℤ))

/-- The loop `for i := 0; i < outliers; i++ { rowLengths = chauvenet(rowLengths) }`. -/
def applyChauvenet (M : MathLib) : ℕ → List ℤ → Option (List ℤ)
  | 0, rowLengths => some rowLengths
  | n + 1, rowLengths =>
    match chauvenet M rowLengths with
    | none => none
    | some filtered => applyChauvenet M n filtered

/-- The closure `getVariance`. -/
def getVariance (M : MathLib) (inp : Input) (colSep : Regexp) (outliers : ℕ) : Option F64 :=
  match applyChauvenet M outliers (getRowLengths (SeparateString inp colSep)) with
  | none => none
  | some rowLengths => some (variance rowLengths)

/-- The closure `getVariance` as the fallback evaluates it: the variance of the filtered row
lengths with the float64 rounding of every operation. -/
def getVarianceRounded (M : MathLib) (inp : Input) (colSep : Regexp) (outliers : ℕ) :
    Option F64 :=
  match applyChauvenet M outliers (getRowLengths (SeparateString inp colSep)) with
  | none => none
  | some rowLengths => some (varianceRounded rowLengths)

/-- The constant `.1` of `testRegexp`. -/
def threshold : F64 := F64.fin (1 / 10)

/-- The loop of `testRegexp` from counter `i` with `n` iterations left. -/
def testRegexpFrom (M : MathLib) (inp : Input) (colSep : Regexp) : ℕ → ℕ → Option Bool
  | _, 0 => some false
  | i, n + 1 =>
    match getVariance M inp colSep i with
    | none => none
    | some v => if F64.le v threshold then some true else testRegexpFrom M inp colSep (i + 1) n

/-- The closure `testRegexp`: `for i := 0; i < outliers; i++`. -/
def testRegexp (M : MathLib) (inp : Input) (colSep : Regexp) (outliers : ℕ) : Option Bool :=
  testRegexpFrom M inp colSep 0 outliers

/-- The pre-filter of `getColumnRegex`, with its fallback to the full list. -/
def colSeps (inp : Input) : List Regexp :=
  let kept := initialColSeps.filter (fun re => matchesMost inp re inp.rows)
  if kept.length < 1 then initialColSeps else kept

/-- What a run of `getColumnRegex` ends in. -/
inductive Outcome where
  /-- The regexp returned. -/
  | returned (re : Regexp) : Outcome
  /-- A run-time panic (index out of range). -/
  | panic : Outcome
  /-- The branch `log.Fatal("Internal error: minVarianceIndex couldn't be found in colSeps")`. -/
  | fatal : Outcome
  deriving DecidableEq

/-- The inner loop `for _, re := range colSeps` of the multi-pass search at pass `i`:
`some (some re)` returns `re`, `some none` falls out of the loop, `none` is a panic. -/
def firstPassing (M : MathLib) (inp : Input) (i : ℕ) : List Regexp → Option (Option Regexp)
  | [] => some none
  | re :: rest =>
    match testRegexp M inp re i with
    | none => none
    | some true => some (some re)
    | some false => firstPassing M inp i rest

/-- The outer loop `for i := 0; i < passes; i++` from counter `i` with `n` iterations left. -/
def multiPassFrom (M : MathLib) (inp : Input) (seps : List Regexp) : ℕ → ℕ → Option (Option Regexp)
  | _, 0 => some none
  | i, n + 1 =>
    match firstPassing M inp i seps with
    | none => none
    | some (some re) => some (some re)
    | some none => multiPassFrom M inp seps (i + 1) n

/-- The constant `passes`. -/
def passes : ℕ := 3

/-- The loop collecting `variances` in the fallback; the values are compared with each other,
so they are the rounded ones. -/
def collectVariances (M : MathLib) (inp : Input) : List Regexp → Option (List F64)
  | [] => some []
  | colSep :: rest =>
    match getVarianceRounded M inp colSep passes with
    | none => none
    | some v =>
      match collectVariances M inp rest with
      | none => none
      | some vs => some (v :: vs)

/-- The fallback of `getColumnRegex`: the candidate of lowest variance among the variances as
float64 computes them (`collectVariances`), with the index guard. -/
def lowestVariance (M : MathLib) (inp : Input) (seps : List Regexp) : Outcome :=
  match collectVariances M inp seps with
  | none => Outcome.panic
  | some variances =>
    let minVarianceIndex := extremaIndex minFunc variances
    if seps.length ≤ minVarianceIndex then Outcome.fatal
    else
      match seps[minVarianceIndex]? with
      | none => Outcome.panic
      | some re => Outcome.returned re

/-- The function `getColumnRegex`. -/
def getColumnRegex (M : MathLib) (inp : Input) : Outcome :=
  match multiPassFrom M inp (colSeps inp) 0 passes with
  | none => Outcome.panic
  | some (some re) => Outcome.returned re
  | some none => lowestVariance M inp (colSeps inp)


/-! ## A concrete math library for evaluation -/

/-- Newton iteration for the integer square root of `n`, from the guess `g`. -/
def isqrtIter (n : ℕ) : ℕ → ℕ → ℕ
  | 0, g => g
  | fuel + 1, g =>
    let next := (g + n / g) / 2
    if next < g then isqrtIter n fuel next else g

/-- The integer square root (floor) of `n`, for `n` below `2^200`. -/
def isqrt (n : ℕ) : ℕ := if n ≤ 1 then n else isqrtIter n 256 n

/-- The square root of a positive rational, rounded down to a multiple of `1 / (den * 10^9)`. -/
def sqrtApprox (q : ℚ) : ℚ :=
  (isqrt (q.num.toNat * q.den * 10 ^ 18) : ℚ) / ((q.den : ℚ) * 10 ^ 9)

/-- The partial sum `1 + p + p^2/2! + ... ` of the exponential series with `n` more terms
after `term`, the term of index `k`. -/
def expSeries (p : ℚ) : ℕ → ℕ → ℚ → ℚ → ℚ
  | 0, _, _, acc => acc
  | n + 1, k, term, acc =>
    let next := term * p / ((k : ℚ) + 1)
    expSeries p n (k + 1) next (acc + next)

/-- The value `e^y` by its series (30 terms), through `e^y = 1 / e^(-y)` for negative `y`. -/
def expApprox (y : ℚ) : ℚ :=
  if 0 ≤ y then expSeries y 30 0 1 1 else 1 / expSeries (-y) 30 0 1 1

/-- A math library of rational approximations, used to evaluate the functions on examples. -/
def approxMath : MathLib where
  sqrtPos := sqrtApprox
  pi := 3141592653589793 / 1000000000000000
  expE := expApprox

/-! ## Specification predicates -/

/-- Index `i` is in range and holds the earliest maximum of `data`: `data[i]` is `>=` every
element and strictly greater than every element before it. -/
def IsEarliestMax (data : List F64) (i : ℕ) : Prop :=
  ∃ e, data[i]? = some e ∧ (∀ x ∈ data, F64.le x e = true) ∧
    ∀ j x, j < i → data[j]? = some x → F64.lt x e = true

/-- Index `i` is in range and holds the earliest minimum of `data`: `data[i]` is `<=` every
element and strictly smaller than every element before it. -/
def IsEarliestMin (data : List F64) (i : ℕ) : Prop :=
  ∃ e, data[i]? = some e ∧ (∀ x ∈ data, F64.le e x = true) ∧
    ∀ j x, j < i → data[j]? = some x → F64.lt e x = true

/-- The arithmetic mean of the points as a rational number. -/
def meanQ (data : List ℤ) : ℚ := (sumInt data : ℚ) / (data.length : ℚ)

/-- The mean of the squared differences as a rational number. -/
def varianceQ (data : List ℤ) : ℚ :=
  (data.map (fun (xn : ℤ) => (meanQ data - (xn : ℚ)) * (meanQ data - (xn : ℚ)))).sum /
    (data.length : ℚ)

/-- Candidate `re`, at position `k` of the surviving list, is the first to pass the consistency
test in the order of (pass, position): it passes at pass `p`, no surviving candidate passes at
a smaller pass, and no candidate at a smaller position passes at pass `p`. -/
def IsFirstPassing (M : MathLib) (inp : Input) (p k : ℕ) (re : Regexp) : Prop :=
  p < passes ∧ (colSeps inp)[k]? = some re ∧ testRegexp M inp re p = some true ∧
  (∀ p' c, p' < p → c ∈ colSeps inp → testRegexp M inp c p' ≠ some true) ∧
  (∀ k' c, k' < k → (colSeps inp)[k']? = some c → testRegexp M inp c p ≠ some true)

/-- The consistency test as the spec words it (4.4): at tolerance `k` a candidate is consistent
if, for some `i` in `[0, k]`, the variance after `i` outlier removals is `<= 0.1`. -/
def specConsistent (M : MathLib) (inp : Input) (colSep : Regexp) (k : ℕ) : Bool :=
  (List.range (k + 1)).any (fun i =>
    match getVariance M inp colSep i with
    | some v => F64.le v threshold
    | none => false)

/-! ## Example inputs -/

/-- The cells of a row in which single tab characters separate the cells; `cur` is the cell
being read, reversed. -/
def tabCellsAux : List Char → List Char → List String
  | [], cur => [String.mk cur.reverse]
  | c :: rest, cur =>
    if c = '\t' then String.mk cur.reverse :: tabCellsAux rest [] else tabCellsAux rest (c :: cur)

/-- The cells of a row in which single tab characters separate the cells. -/
def tabCells (row : String) : List String := tabCellsAux row.toList []

/-- Rows whose only whitespace is single tab characters between cells: the tab pattern and
the any-whitespace pattern match a row with a tab and split at the tabs, the patterns of four
and of two or more whitespaces match nothing and leave a row whole. -/
def tabbedText (rows : List String) : Input where
  rows := rows
  matchString := fun re row =>
    match re with
    | Regexp.tabs => row.toList.contains '\t'
    | Regexp.anyWhitespace => row.toList.contains '\t'
    | _ => false
  splitRow := fun re row =>
    match re with
    | Regexp.tabs => tabCells row
    | Regexp.anyWhitespace => tabCells row
    | _ => [row]

/-- A table of eight rows, seven of 3 tab-separated cells and a last one of 2. -/
def oneShortRowText : Input :=
  tabbedText ["a\tb\tc", "a\tb\tc", "a\tb\tc", "a\tb\tc", "a\tb\tc", "a\tb\tc", "a\tb\tc", "a\tb"]

/-- A table of ten rows, eight of 3 tab-separated cells, one of a single cell and one of 9. -/
def twoOddRowsText : Input :=
  tabbedText ["a\tb\tc", "a\tb\tc", "a\tb\tc", "a\tb\tc", "a\tb\tc", "a\tb\tc", "a\tb\tc",
    "a\tb\tc", "a", "a\tb\tc\td\te\tf\tg\th\ti"]

/-- The cells of a row split at every character that `isSep` holds of; `cur` is the cell being
read, reversed. -/
def sepCellsAux (isSep : Char → Bool) : List Char → List Char → List String
  | [], cur => [String.mk cur.reverse]
  | c :: rest, cur =>
    if isSep c then String.mk cur.reverse :: sepCellsAux isSep rest []
    else sepCellsAux isSep rest (c :: cur)

/-- Rows whose whitespace is single tabs and single spaces between cells: the tab pattern
matches a row with a tab and splits at the tabs, the any-whitespace pattern matches a row with
a tab or a space and splits at both, the patterns of four and of two or more whitespaces match
nothing and leave a row whole. -/
def spacedText (rows : List String) : Input where
  rows := rows
  matchString := fun re row =>
    match re with
    | Regexp.tabs => row.toList.contains '\t'
    | Regexp.anyWhitespace => row.toList.contains '\t' || row.toList.contains ' '
    | _ => false
  splitRow := fun re row =>
    match re with
    | Regexp.tabs => sepCellsAux (fun c => c == '\t') row.toList []
    | Regexp.anyWhitespace => sepCellsAux (fun c => c == '\t' || c == ' ') row.toList []
    | _ => [row]

/-- Nine rows of 4 whitespace-separated cells each; a tab follows the first cell of every row,
and the last row has a second tab. -/
def mixedWhitespaceText : Input :=
  spacedText ["a\tb c d", "a\tb c d", "a\tb c d", "a\tb c d", "a\tb c d", "a\tb c d",
    "a\tb c d", "a\tb c d", "a\tb\tc d"]

/-- Five rows: "a b", three times "a\tb", and "a\tb c". The tab pattern gives the row lengths
`[1, 2, 2, 2, 2]`, the any-whitespace pattern `[2, 2, 2, 2, 3]`, both of variance 4/25. -/
def tiedVariancesText : Input :=
  spacedText ["a b", "a\tb", "a\tb", "a\tb", "a\tb c"]

/-- Twenty-one rows: seventeen "a\tb c d", two "a\tb\tc d", one of 9 and one of 12
tab-separated cells. The tab pattern gives the row lengths 2 (17 times), 3, 3, 9, 12, the
any-whitespace pattern 4 (19 times), 9, 12. -/
def lateConsistentText : Input :=
  spacedText ["a\tb c d", "a\tb c d", "a\tb c d", "a\tb c d", "a\tb c d", "a\tb c d",
    "a\tb c d", "a\tb c d", "a\tb c d", "a\tb c d", "a\tb c d", "a\tb c d", "a\tb c d",
    "a\tb c d", "a\tb c d", "a\tb c d", "a\tb c d", "a\tb\tc d", "a\tb\tc d",
    "a\tb\tc\td\te\tf\tg\th\ti", "a\tb\tc\td\te\tf\tg\th\ti\tj\tk\tl"]

/-! ## Order facts about `F64` -/

theorem F64.le_refl_of_ne_nan {x : F64} (h : x ≠ F64.nan) : F64.le x x = true := by
  cases x <;> simp [F64.le] at *

theorem F64.le_of_lt {x y : F64} (h : F64.lt x y = true) : F64.le x y = true := by
  cases x <;> cases y <;> simp [F64.lt, F64.le] at *
  exact h.le

theorem F64.lt_of_le_of_lt {x y z : F64} (h₁ : F64.le x y = true) (h₂ : F64.lt y z = true) :
    F64.lt x z = true := by
  cases x <;> cases y <;> cases z <;> simp [F64.lt, F64.le] at *
  exact h₁.trans_lt h₂

theorem F64.lt_of_lt_of_le {x y z : F64} (h₁ : F64.lt x y = true) (h₂ : F64.le y z = true) :
    F64.lt x z = true := by
  cases x <;> cases y <;> cases z <;> simp [F64.lt, F64.le] at *
  exact h₁.trans_le h₂

theorem F64.le_of_not_lt {x y : F64} (hx : x ≠ F64.nan) (hy : y ≠ F64.nan)
    (h : F64.lt x y = false) : F64.le y x = true := by
  cases x <;> cases y <;> simp [F64.lt, F64.le] at *
  exact h

theorem F64.lt_irrefl (x : F64) : F64.lt x x = false := by
  cases x <;> simp [F64.lt]

/-- The invariant of the loop of `extremaIndex`, for a comparator `cmp` that is the strict
part `worse e d` (read: `d` beats `e`) of a preorder `noBetter` on the values occurring. -/
theorem extremaLoop_spec (cmp noBetter : F64 → F64 → Bool) (S : F64 → Prop)
    (hrefl : ∀ x, S x → noBetter x x = true)
    (htrans : ∀ x e d, noBetter x e = true → cmp d e = true → cmp d x = true)
    (hweak : ∀ x d, cmp d x = true → noBetter x d = true)
    (htotal : ∀ e d, S e → S d → cmp d e = false → noBetter d e = true)
    (rest : List F64) :
    ∀ (pre : List F64) (extrema : F64) (idx : ℕ),
      (∀ x ∈ pre, S x) → (∀ x ∈ rest, S x) → S extrema →
      pre[idx]? = some extrema →
      (∀ x ∈ pre, noBetter x extrema = true) →
      (∀ j x, j < idx → pre[j]? = some x → cmp extrema x = true) →
      ∃ e, (pre ++ rest)[extremaLoop cmp rest pre.length extrema idx]? = some e ∧
        (∀ x ∈ pre ++ rest, noBetter x e = true) ∧
        (∀ j x, j < extremaLoop cmp rest pre.length extrema idx →
          (pre ++ rest)[j]? = some x → cmp e x = true) := by
  induction rest with
  | nil =>
    intro pre extrema idx _ _ _ hidx hall hbefore
    refine ⟨extrema, ?_, ?_, ?_⟩
    · simpa [extremaLoop] using hidx
    · simpa using hall
    · simpa [extremaLoop] using hbefore
  | cons datum rest ih =>
    intro pre extrema idx hpre hrest hext hidx hall hbefore
    have hd : S datum := hrest datum (List.mem_cons_self _ _)
    have hrest' : ∀ x ∈ rest, S x := fun x hx => hrest x (List.mem_cons_of_mem _ hx)
    have hpre' : ∀ x ∈ pre ++ [datum], S x := by
      intro x hx
      rcases List.mem_append.mp hx with h | h
      · exact hpre x h
      · simp at h; subst h; exact hd
    have hlen : (pre ++ [datum]).length = pre.length + 1 := by simp
    have happ : pre ++ datum :: rest = (pre ++ [datum]) ++ rest := by simp
    have hidxlt : idx < pre.length := by
      by_contra hc
      have : pre[idx]? = none := List.getElem?_eq_none (Nat.le_of_not_lt hc)
      rw [this] at hidx; cases hidx
    by_cases hc : cmp datum extrema = true
    · have key := ih (pre ++ [datum]) datum pre.length hpre' hrest' hd
        (by simp)
        (by
          intro x hx
          rcases List.mem_append.mp hx with h | h
          · exact hweak x datum (htrans x extrema datum (hall x h) hc)
          · simp at h; subst h; exact hrefl _ hd)
        (by
          intro j x hj hx
          have hx' : pre[j]? = some x := by
            rw [List.getElem?_append_left hj] at hx; exact hx
          exact htrans x extrema datum (hall x (List.getElem?_mem hx')) hc)
      rw [hlen] at key
      simp only [extremaLoop, hc, if_true]
      rw [happ]; exact key
    · have hc' : cmp datum extrema = false := by simpa using hc
      have key := ih (pre ++ [datum]) extrema idx hpre' hrest' hext
        (by rw [List.getElem?_append_left hidxlt]; exact hidx)
        (by
          intro x hx
          rcases List.mem_append.mp hx with h | h
          · exact hall x h
          · simp at h; subst h; exact htotal extrema x hext hd hc')
        (by
          intro j x hj hx
          have hx' : pre[j]? = some x := by
            rw [List.getElem?_append_left (lt_trans hj hidxlt)] at hx; exact hx
          exact hbefore j x hj hx')
      rw [hlen] at key
      simp only [extremaLoop, hc]
      rw [happ]; simpa using key

/-- The result of `extremaIndex` on a non-empty list free of NaN. -/
theorem extremaIndex_spec (cmp noBetter : F64 → F64 → Bool)
    (hirr : ∀ x, cmp x x = false)
    (hrefl : ∀ x, x ≠ F64.nan → noBetter x x = true)
    (htrans : ∀ x e d, noBetter x e = true → cmp d e = true → cmp d x = true)
    (hweak : ∀ x d, cmp d x = true → noBetter x d = true)
    (htotal : ∀ e d, e ≠ F64.nan → d ≠ F64.nan → cmp d e = false → noBetter d e = true)
    (data : List F64) (hne : data ≠ []) (hnan : ∀ x ∈ data, x ≠ F64.nan) :
    ∃ e, data[extremaIndex cmp data]? = some e ∧
      (∀ x ∈ data, noBetter x e = true) ∧
      (∀ j x, j < extremaIndex cmp data → data[j]? = some x → cmp e x = true) := by
  cases data with
  | nil => exact absurd rfl hne
  | cons d0 rest =>
    have hd0 : d0 ≠ F64.nan := hnan d0 (List.mem_cons_self _ _)
    have key := extremaLoop_spec cmp noBetter (fun x => x ≠ F64.nan) hrefl htrans hweak htotal
      rest [d0] d0 0
      (by simpa using hd0)
      (fun x hx => hnan x (List.mem_cons_of_mem _ hx)) hd0 (by simp)
      (by simpa using hrefl d0 hd0)
      (by intro j x hj; exact absurd hj (Nat.not_lt_zero _))
    simpa [extremaIndex, extremaLoop, hirr] using key

/-! ## The statistics helpers on a non-empty sample -/

theorem length_cast_ne_zero {data : List ℤ} (hne : data ≠ []) : ((data.length : ℤ) : ℚ) ≠ 0 := by
  have : data.length ≠ 0 := fun h => hne (List.length_eq_zero.mp h)
  exact_mod_cast this

theorem meanInt_eq {data : List ℤ} (hne : data ≠ []) : meanInt data = F64.fin (meanQ data) := by
  have h := length_cast_ne_zero hne
  simp only [meanInt, F64.ofInt, F64.div, if_neg h, meanQ]
  norm_cast

theorem getSquaredDifferences_eq {data : List ℤ} (hne : data ≠ []) :
    getSquaredDifferences data =
      data.map (fun (xn : ℤ) => F64.fin ((meanQ data - (xn : ℚ)) * (meanQ data - (xn : ℚ)))) := by
  simp only [getSquaredDifferences, meanInt_eq hne, F64.ofInt, F64.sub, F64.neg, F64.add,
    F64.pow2, sub_eq_add_neg]

theorem getSquaredDifferences_ne_nan {data : List ℤ} (hne : data ≠ []) :
    ∀ x ∈ getSquaredDifferences data, x ≠ F64.nan := by
  rw [getSquaredDifferences_eq hne]
  intro x hx
  obtain ⟨y, _, rfl⟩ := List.mem_map.mp hx
  simp

theorem length_getSquaredDifferences (data : List ℤ) :
    (getSquaredDifferences data).length = data.length := by
  simp [getSquaredDifferences]

/-- The index found by `extremaIndex` with `maxFunc` holds the earliest maximum, on a list without NaN. -/
theorem extremaIndex_maxFunc_spec (data : List F64) (hne : data ≠ [])
    (hnan : ∀ x ∈ data, x ≠ F64.nan) : IsEarliestMax data (extremaIndex maxFunc data) :=
  extremaIndex_spec maxFunc (fun x e => F64.le x e)
    F64.lt_irrefl
    (fun _ hx => F64.le_refl_of_ne_nan hx)
    (fun _ _ _ h₁ h₂ => F64.lt_of_le_of_lt h₁ h₂)
    (fun _ _ h => F64.le_of_lt h)
    (fun _ _ he hd h => F64.le_of_not_lt he hd h)
    data hne hnan

/-- The index found by `extremaIndex` with `minFunc` holds the earliest minimum, on a list without NaN. -/
theorem extremaIndex_minFunc_spec (data : List F64) (hne : data ≠ [])
    (hnan : ∀ x ∈ data, x ≠ F64.nan) : IsEarliestMin data (extremaIndex minFunc data) :=
  extremaIndex_spec minFunc (fun x e => F64.le e x)
    F64.lt_irrefl
    (fun _ hx => F64.le_refl_of_ne_nan hx)
    (fun _ _ _ h₁ h₂ => F64.lt_of_lt_of_le h₂ h₁)
    (fun _ _ h => F64.le_of_lt h)
    (fun _ _ he hd h => F64.le_of_not_lt hd he h)
    data hne hnan

/-- The most deviant point of a non-empty sample: the index is in range. -/
theorem mostDeviant_spec {data : List ℤ} (hne : data ≠ []) :
    IsEarliestMax (getSquaredDifferences data) (extremaIndex maxFunc (getSquaredDifferences data)) ∧
    ∃ x, data[extremaIndex maxFunc (getSquaredDifferences data)]? = some x := by
  have hne' : getSquaredDifferences data ≠ [] := by
    intro h
    have := congrArg List.length h
    rw [length_getSquaredDifferences] at this
    exact hne (List.length_eq_zero.mp this)
  have hmax := extremaIndex_maxFunc_spec _ hne' (getSquaredDifferences_ne_nan hne)
  refine ⟨hmax, ?_⟩
  obtain ⟨e, he, _⟩ := hmax
  have hlt := (List.getElem?_eq_some.mp he).1
  rw [length_getSquaredDifferences] at hlt
  exact ⟨data[extremaIndex maxFunc (getSquaredDifferences data)], List.getElem?_eq_getElem hlt⟩

/-- The significance threshold `float64(1)/float64(2*len(data))` of a non-empty sample. -/
theorem chauvenet_threshold_eq {data : List ℤ} (hne : data ≠ []) :
    F64.div (F64.ofInt 1) (F64.ofInt (2 * (data.length : ℤ))) =
      F64.fin (1 / (2 * (data.length : ℚ))) := by
  have h := length_cast_ne_zero hne
  have h2 : (((2 * (data.length : ℤ) : ℤ)) : ℚ) ≠ 0 := by
    push_cast
    exact mul_ne_zero two_ne_zero (by exact_mod_cast h)
  simp only [F64.ofInt, F64.div, if_neg h2]
  push_cast
  rfl

theorem F64.nan_lt (y : F64) : F64.lt F64.nan y = false := by
  cases y <;> rfl

theorem F64.pow2_cases (y : F64) :
    F64.pow2 y = F64.nan ∨ F64.pow2 y = F64.pinf ∨ ∃ q : ℚ, 0 ≤ q ∧ F64.pow2 y = F64.fin q := by
  cases y with
  | nan => exact Or.inl rfl
  | ninf => exact Or.inr (Or.inl rfl)
  | pinf => exact Or.inr (Or.inl rfl)
  | fin d => exact Or.inr (Or.inr ⟨d * d, mul_self_nonneg d, rfl⟩)

theorem coefficient_sigma_zero (M : MathLib) :
    F64.div (F64.fin 1) (F64.mul (F64.fin 0) (sqrt M (F64.fin (2 * M.pi)))) = F64.nan ∨
    F64.div (F64.fin 1) (F64.mul (F64.fin 0) (sqrt M (F64.fin (2 * M.pi)))) = F64.pinf := by
  simp only [sqrt]
  split_ifs <;> simp [F64.mul, F64.div, F64.infTimes]

theorem exponent_sigma_zero (M : MathLib) (x mu : F64) :
    powE M (F64.neg (F64.div (F64.pow2 (F64.sub x mu))
      (F64.mul (F64.fin 2) (F64.pow2 (F64.fin 0))))) = F64.nan ∨
    powE M (F64.neg (F64.div (F64.pow2 (F64.sub x mu))
      (F64.mul (F64.fin 2) (F64.pow2 (F64.fin 0))))) = F64.fin 0 := by
  have h0 : F64.mul (F64.fin 2) (F64.pow2 (F64.fin 0)) = F64.fin 0 := by
    simp [F64.mul, F64.pow2]
  rw [h0]
  rcases F64.pow2_cases (F64.sub x mu) with h | h | ⟨q, hq, h⟩
  · rw [h]; exact Or.inl rfl
  · rw [h]; right; simp [F64.div, F64.neg, powE]
  · rw [h]
    rcases eq_or_lt_of_le hq with h0 | hpos
    · left; simp [F64.div, F64.neg, powE, F64.infTimes, ← h0]
    · right; simp [F64.div, F64.neg, powE, F64.infTimes, hpos, hpos.ne.symm]

/-- With `sigma = 0` the density is NaN: the coefficient is `1/0 = +Inf` (or NaN) and the
exponential is `0` or NaN. -/
theorem normalDistribution_sigma_zero (M : MathLib) (x mu : F64) :
    normalDistribution M x mu (F64.fin 0) = F64.nan := by
  show F64.mul (F64.div (F64.fin 1) (F64.mul (F64.fin 0) (sqrt M (F64.fin (2 * M.pi)))))
    (powE M (F64.neg (F64.div (F64.pow2 (F64.sub x mu))
      (F64.mul (F64.fin 2) (F64.pow2 (F64.fin 0)))))) = F64.nan
  rcases coefficient_sigma_zero M with hc | hc <;>
    rcases exponent_sigma_zero M x mu with he | he <;>
    rw [hc, he] <;> simp [F64.mul, F64.infTimes]

theorem sumFloat_foldl_fin (l : List ℚ) (a : ℚ) :
    (l.map F64.fin).foldl (fun sum i => F64.add sum i) (F64.fin a) = F64.fin (a + l.sum) := by
  induction l generalizing a with
  | nil => simp
  | cons b l ih =>
    have hadd : F64.add (F64.fin a) (F64.fin b) = F64.fin (a + b) := rfl
    simp only [List.map_cons, List.foldl_cons, hadd, ih, List.sum_cons, add_assoc]

theorem sumFloat_map_fin (l : List ℚ) : sumFloat (l.map F64.fin) = F64.fin l.sum := by
  simpa [sumFloat] using sumFloat_foldl_fin l 0

/-- The variance of a non-empty sample is the finite value `varianceQ`. -/
theorem variance_eq {data : List ℤ} (hne : data ≠ []) :
    variance data = F64.fin (varianceQ data) := by
  have h := length_cast_ne_zero hne
  have hmap : data.map (fun (xn : ℤ) => F64.fin ((meanQ data - (xn : ℚ)) * (meanQ data - (xn : ℚ))))
      = (data.map (fun (xn : ℤ) => (meanQ data - (xn : ℚ)) * (meanQ data - (xn : ℚ)))).map F64.fin := by
    simp [List.map_map]
  rw [variance, getSquaredDifferences_eq hne, meanFloat, hmap, sumFloat_map_fin]
  simp only [List.length_map, F64.ofInt, F64.div, if_neg h, varianceQ]
  norm_cast

theorem sumInt_foldl (l : List ℤ) (a : ℤ) : l.foldl (fun sum i => sum + i) a = a + l.sum := by
  induction l generalizing a with
  | nil => simp
  | cons b l ih => simp [List.foldl_cons, ih, add_assoc]

theorem sumInt_eq_sum (l : List ℤ) : sumInt l = l.sum := by
  simpa [sumInt] using sumInt_foldl l 0

/-- The mean of a non-empty sample of equal points is that point. -/
theorem meanQ_uniform {data : List ℤ} (hne : data ≠ []) {v : ℤ} (h : ∀ x ∈ data, x = v) :
    meanQ data = (v : ℚ) := by
  have hlen := length_cast_ne_zero hne
  have hrep : data = List.replicate data.length v := List.eq_replicate_iff.mpr ⟨rfl, h⟩
  have hsum : data.sum = (data.length : ℤ) * v := by
    conv_lhs => rw [hrep]
    simp
  rw [meanQ, sumInt_eq_sum, hsum]
  push_cast
  have hlen' : (data.length : ℚ) ≠ 0 := by exact_mod_cast hlen
  field_simp

/-- The variance of a non-empty sample of equal points is exactly 0. -/
theorem variance_uniform {data : List ℤ} (hne : data ≠ []) {v : ℤ} (h : ∀ x ∈ data, x = v) :
    variance data = F64.fin 0 := by
  rw [variance_eq hne, varianceQ, meanQ_uniform hne h]
  have hz : data.map (fun (xn : ℤ) => ((v : ℚ) - (xn : ℚ)) * ((v : ℚ) - (xn : ℚ)))
      = data.map (fun _ => (0 : ℚ)) := by
    apply List.map_congr_left
    intro x hx
    rw [h x hx]; simp
  rw [hz]
  simp

/-- A point is never an outlier of a sample of variance 0: the density is NaN and every
comparison with NaN is false. -/
theorem isOutlier_of_variance_zero (M : MathLib) (x : F64) {data : List ℤ}
    (h : variance data = F64.fin 0) : isOutlier M x data = false := by
  have hs : stdDev M data = F64.fin 0 := by simp [stdDev, h, sqrt]
  simp only [isOutlier, hs, normalDistribution_sigma_zero]
  exact F64.nan_lt _

/-- The function `chauvenet` leaves a non-empty sample of equal points unchanged. -/
theorem chauvenet_uniform (M : MathLib) {data : List ℤ} (hne : data ≠ []) {v : ℤ}
    (h : ∀ x ∈ data, x = v) : chauvenet M data = some data := by
  obtain ⟨_, x, hx⟩ := mostDeviant_spec hne
  simp [chauvenet, hx, isOutlier_of_variance_zero M _ (variance_uniform hne h)]

/-- The function `chauvenet` on a non-empty sample returns a non-empty sample, no longer
than the input. -/
theorem chauvenet_nonempty (M : MathLib) {data : List ℤ} (hne : data ≠ []) :
    ∃ r, chauvenet M data = some r ∧ r ≠ [] ∧ r.length ≤ data.length := by
  obtain ⟨_, x, hx⟩ := mostDeviant_spec hne
  by_cases hout : isOutlier M (F64.ofInt x) data = true
  · refine ⟨data.eraseIdx (extremaIndex maxFunc (getSquaredDifferences data)), ?_, ?_, ?_⟩
    · simp [chauvenet, hx, hout, List.eraseIdx_eq_take_drop_succ]
    · intro hnil
      have hlen : data.length = 1 := by
        have := List.length_eraseIdx_add_one (List.getElem?_eq_some.mp hx).1
        rw [hnil] at this
        simpa using this.symm
      obtain ⟨v, hv⟩ := List.length_eq_one.mp hlen
      have hu : chauvenet M data = some data :=
        chauvenet_uniform M hne (v := v) (by rw [hv]; simp)
      have hv0 := variance_uniform hne (v := v) (by rw [hv]; simp)
      rw [isOutlier_of_variance_zero M _ hv0] at hout
      cases hout
    · exact List.length_eraseIdx_le _ _
  · exact ⟨data, by simp [chauvenet, hx, hout], hne, le_refl _⟩

/-! ## The selector: totality on a text with at least one row -/

theorem length_getRowLengths (inp : Input) (colSep : Regexp) :
    (getRowLengths (SeparateString inp colSep)).length = inp.rows.length := by
  simp [getRowLengths, SeparateString]

theorem getRowLengths_ne_nil {inp : Input} (hrows : inp.rows ≠ []) (colSep : Regexp) :
    getRowLengths (SeparateString inp colSep) ≠ [] := by
  intro h
  have := congrArg List.length h
  rw [length_getRowLengths] at this
  exact hrows (List.length_eq_zero.mp this)

theorem getRowLengths_eq_nil {inp : Input} (hrows : inp.rows = []) (colSep : Regexp) :
    getRowLengths (SeparateString inp colSep) = [] := by
  simp [getRowLengths, SeparateString, hrows]

/-- Repeated filtering of a non-empty sample yields a non-empty sample. -/
theorem applyChauvenet_nonempty (M : MathLib) (n : ℕ) :
    ∀ {data : List ℤ}, data ≠ [] →
      ∃ r, applyChauvenet M n data = some r ∧ r ≠ [] ∧ r.length ≤ data.length := by
  induction n with
  | zero => intro data hne; exact ⟨data, rfl, hne, le_refl _⟩
  | succ n ih =>
    intro data hne
    obtain ⟨r, hr, hrne, hrlen⟩ := chauvenet_nonempty M hne
    obtain ⟨r', hr', hrne', hrlen'⟩ := ih hrne
    exact ⟨r', by simp [applyChauvenet, hr, hr'], hrne', le_trans hrlen' hrlen⟩

/-- On a text with at least one row, `getVariance` returns a finite value. -/
theorem getVariance_finite (M : MathLib) {inp : Input} (hrows : inp.rows ≠ [])
    (colSep : Regexp) (outliers : ℕ) :
    ∃ q : ℚ, getVariance M inp colSep outliers = some (F64.fin q) := by
  obtain ⟨r, hr, hrne, _⟩ := applyChauvenet_nonempty M outliers (getRowLengths_ne_nil hrows colSep)
  exact ⟨varianceQ r, by simp [getVariance, hr, variance_eq hrne]⟩

theorem testRegexpFrom_total (M : MathLib) {inp : Input} (hrows : inp.rows ≠ [])
    (colSep : Regexp) (n : ℕ) : ∀ i, ∃ b, testRegexpFrom M inp colSep i n = some b := by
  induction n with
  | zero => intro i; exact ⟨false, rfl⟩
  | succ n ih =>
    intro i
    obtain ⟨q, hq⟩ := getVariance_finite M hrows colSep i
    by_cases hle : F64.le (F64.fin q) threshold = true
    · exact ⟨true, by simp [testRegexpFrom, hq, hle]⟩
    · obtain ⟨b, hb⟩ := ih (i + 1)
      exact ⟨b, by simp [testRegexpFrom, hq, hle, hb]⟩

/-- At tolerance 0 the loop of `testRegexp` makes no iteration. -/
theorem testRegexp_zero (M : MathLib) (inp : Input) (colSep : Regexp) :
    testRegexp M inp colSep 0 = some false := rfl

/-- On a text with at least one row, `testRegexp` returns. -/
theorem testRegexp_total (M : MathLib) {inp : Input} (hrows : inp.rows ≠ [])
    (colSep : Regexp) (outliers : ℕ) : ∃ b, testRegexp M inp colSep outliers = some b :=
  testRegexpFrom_total M hrows colSep outliers 0

theorem variance_nil : variance [] = F64.nan := by
  simp [variance, getSquaredDifferences, meanFloat, sumFloat, F64.ofInt, F64.div, F64.infTimes]

theorem chauvenet_nil (M : MathLib) : chauvenet M [] = none := rfl

/-- On a text without rows, the variance is NaN and the filter fails: `testRegexp` never
returns `true`. -/
theorem testRegexp_no_rows (M : MathLib) {inp : Input} (hrows : inp.rows = [])
    (colSep : Regexp) (outliers : ℕ) : testRegexp M inp colSep outliers ≠ some true := by
  have h0 : getVariance M inp colSep 0 = some F64.nan := by
    simp [getVariance, applyChauvenet, getRowLengths_eq_nil hrows, variance_nil]
  have h1 : getVariance M inp colSep 1 = none := by
    simp [getVariance, applyChauvenet, getRowLengths_eq_nil hrows, chauvenet_nil]
  have hle : F64.le F64.nan threshold = false := rfl
  cases outliers with
  | zero => simp [testRegexp, testRegexpFrom]
  | succ n =>
    cases n with
    | zero => simp [testRegexp, testRegexpFrom, h0, hle]
    | succ n => simp [testRegexp, testRegexpFrom, h0, hle, h1]

/-- A consistency test that returns `true` shows that the text has at least one row. -/
theorem rows_ne_nil_of_testRegexp (M : MathLib) {inp : Input} {colSep : Regexp} {outliers : ℕ}
    {b : Bool} (h : testRegexp M inp colSep outliers = some b) (hk : b = true ∨ 2 ≤ outliers) :
    inp.rows ≠ [] := by
  intro hrows
  have h0 : getVariance M inp colSep 0 = some F64.nan := by
    simp [getVariance, applyChauvenet, getRowLengths_eq_nil hrows, variance_nil]
  have h1 : getVariance M inp colSep 1 = none := by
    simp [getVariance, applyChauvenet, getRowLengths_eq_nil hrows, chauvenet_nil]
  have hle : F64.le F64.nan threshold = false := rfl
  rcases hk with hb | hk
  · subst hb; exact testRegexp_no_rows M hrows colSep outliers h
  · obtain ⟨n, rfl⟩ : ∃ n, outliers = n + 2 := ⟨outliers - 2, by omega⟩
    simp [testRegexp, testRegexpFrom, h0, hle, h1] at h

/-! ## The selector: the two loops of the multi-pass search -/

/-- The inner loop returns the first candidate of the list that passes, or falls through
when none passes. -/
theorem firstPassing_spec (M : MathLib) (inp : Input)
    (htot : ∀ c p, ∃ b, testRegexp M inp c p = some b) (i : ℕ) (seps : List Regexp) :
    (∃ k re, seps[k]? = some re ∧ firstPassing M inp i seps = some (some re) ∧
        testRegexp M inp re i = some true ∧
        ∀ (k' : ℕ) (c : Regexp), k' < k → seps[k']? = some c → testRegexp M inp c i = some false) ∨
    (firstPassing M inp i seps = some none ∧ ∀ c ∈ seps, testRegexp M inp c i = some false) := by
  induction seps with
  | nil => right; exact ⟨rfl, by simp⟩
  | cons re rest ih =>
    obtain ⟨b, hb⟩ := htot re i
    cases b with
    | true =>
      left
      refine ⟨0, re, by simp, by simp [firstPassing, hb], hb, ?_⟩
      intro k' c hk'; exact absurd hk' (Nat.not_lt_zero _)
    | false =>
      rcases ih with ⟨k, re', hk, hfp, hpass, hbefore⟩ | ⟨hfp, hnone⟩
      · left
        refine ⟨k + 1, re', by simpa using hk, by simp [firstPassing, hb, hfp], hpass, ?_⟩
        intro k' c hk' hc
        cases k' with
        | zero => simp at hc; subst hc; exact hb
        | succ k' => exact hbefore k' c (by omega) (by simpa using hc)
      · right
        refine ⟨by simp [firstPassing, hb, hfp], ?_⟩
        intro c hc
        rcases List.mem_cons.mp hc with h | h
        · subst h; exact hb
        · exact hnone c h

/-- The multi-pass search returns the first candidate that passes in the order of
(pass, position), or falls through when none passes at any pass. -/
theorem multiPassFrom_spec (M : MathLib) (inp : Input)
    (htot : ∀ c p, ∃ b, testRegexp M inp c p = some b) (seps : List Regexp) (n : ℕ) :
    ∀ i,
    (∃ p k re, i ≤ p ∧ p < i + n ∧ seps[k]? = some re ∧
        multiPassFrom M inp seps i n = some (some re) ∧
        testRegexp M inp re p = some true ∧
        (∀ p' c, i ≤ p' → p' < p → c ∈ seps → testRegexp M inp c p' = some false) ∧
        (∀ (k' : ℕ) (c : Regexp), k' < k → seps[k']? = some c → testRegexp M inp c p = some false)) ∨
    (multiPassFrom M inp seps i n = some none ∧
      ∀ p' c, i ≤ p' → p' < i + n → c ∈ seps → testRegexp M inp c p' = some false) := by
  induction n with
  | zero =>
    intro i; right
    exact ⟨rfl, fun p' c h₁ h₂ => absurd h₂ (by omega)⟩
  | succ n ih =>
    intro i
    rcases firstPassing_spec M inp htot i seps with ⟨k, re, hk, hfp, hpass, hbefore⟩ | ⟨hfp, hnone⟩
    · left
      refine ⟨i, k, re, le_refl _, by omega, hk, by simp [multiPassFrom, hfp], hpass, ?_, hbefore⟩
      intro p' c h₁ h₂; exact absurd h₂ (by omega)
    · rcases ih (i + 1) with ⟨p, k, re, hip, hpn, hk, hmp, hpass, hearlier, hbefore⟩ | ⟨hmp, hall⟩
      · left
        refine ⟨p, k, re, by omega, by omega, hk, by simp [multiPassFrom, hfp, hmp], hpass, ?_,
          hbefore⟩
        intro p' c h₁ h₂ hc
        rcases Nat.eq_or_lt_of_le h₁ with h | h
        · subst h; exact hnone c hc
        · exact hearlier p' c (by omega) h₂ hc
      · right
        refine ⟨by simp [multiPassFrom, hfp, hmp], ?_⟩
        intro p' c h₁ h₂ hc
        rcases Nat.eq_or_lt_of_le h₁ with h | h
        · subst h; exact hnone c hc
        · exact hall p' c (by omega) (by omega) hc

/-! ## The selector: the surviving candidates -/

theorem colSeps_ne_nil (inp : Input) : colSeps inp ≠ [] := by
  unfold colSeps
  simp only []
  split_ifs with h
  · simp [initialColSeps]
  · intro hnil
    rw [hnil] at h
    simp at h

theorem colSeps_subset (inp : Input) : ∀ c ∈ colSeps inp, c ∈ initialColSeps := by
  unfold colSeps
  simp only []
  split_ifs with h
  · exact fun c hc => hc
  · exact fun c hc => (List.mem_filter.mp hc).1

/-- The tab pattern, when it survives, is the first of the surviving candidates. -/
theorem colSeps_head_tabs (inp : Input) (h : Regexp.tabs ∈ colSeps inp) :
    (colSeps inp)[0]? = some Regexp.tabs := by
  unfold colSeps at h ⊢
  simp only [] at h ⊢
  split_ifs at h ⊢ with hlen
  · rfl
  · have hm : matchesMost inp Regexp.tabs inp.rows = true := (List.mem_filter.mp h).2
    simp [initialColSeps, List.filter_cons, hm]


/-! ## The rounded variance of a non-empty sample is finite -/

theorem sumFloatRounded_foldl_fin (l : List F64) (hl : ∀ x ∈ l, ∃ q : ℚ, x = F64.fin q) :
    ∀ a : ℚ, ∃ q : ℚ,
      l.foldl (fun sum i => F64.rounded (F64.add sum i)) (F64.fin a) = F64.fin q := by
  induction l with
  | nil => intro a; exact ⟨a, rfl⟩
  | cons x l ih =>
    intro a
    obtain ⟨b, rfl⟩ := hl x (List.mem_cons_self _ _)
    have hstep : F64.rounded (F64.add (F64.fin a) (F64.fin b)) =
        F64.fin (roundFloat64 (a + b)) := rfl
    rw [List.foldl_cons, hstep]
    exact ih (fun y hy => hl y (List.mem_cons_of_mem _ hy)) _

/-- The variance that float64 computes for a non-empty sample is a finite value, not NaN. -/
theorem varianceRounded_finite {data : List ℤ} (hne : data ≠ []) :
    ∃ q : ℚ, varianceRounded data = F64.fin q := by
  have hlen := length_cast_ne_zero hne
  have hmean : ∃ m : ℚ, meanIntRounded data = F64.fin m := by
    refine ⟨roundFloat64 ((sumInt data : ℚ) / ((data.length : ℤ) : ℚ)), ?_⟩
    simp only [meanIntRounded, F64.ofInt, F64.div, if_neg hlen, F64.rounded]
  obtain ⟨m, hm⟩ := hmean
  have hsq : ∀ x ∈ getSquaredDifferencesRounded data, ∃ q : ℚ, x = F64.fin q := by
    intro x hx
    obtain ⟨xn, _, rfl⟩ := List.mem_map.mp hx
    rw [hm]
    exact ⟨_, rfl⟩
  obtain ⟨s, hs⟩ := sumFloatRounded_foldl_fin _ hsq 0
  have hlen' : (((getSquaredDifferencesRounded data).length : ℤ) : ℚ) ≠ 0 := by
    simpa [getSquaredDifferencesRounded] using hlen
  refine ⟨roundFloat64 (s / (((getSquaredDifferencesRounded data).length : ℤ) : ℚ)), ?_⟩
  have hs' : sumFloatRounded (getSquaredDifferencesRounded data) = F64.fin s := hs
  rw [varianceRounded, meanFloatRounded, hs']
  simp only [F64.ofInt, F64.div, if_neg hlen', F64.rounded]

/-- On a text with at least one row, the fallback's `getVariance` returns a finite value. -/
theorem getVarianceRounded_finite (M : MathLib) {inp : Input} (hrows : inp.rows ≠ [])
    (colSep : Regexp) (outliers : ℕ) :
    ∃ q : ℚ, getVarianceRounded M inp colSep outliers = some (F64.fin q) := by
  obtain ⟨r, hr, hrne, _⟩ := applyChauvenet_nonempty M outliers (getRowLengths_ne_nil hrows colSep)
  obtain ⟨q, hq⟩ := varianceRounded_finite hrne
  exact ⟨q, by simp [getVarianceRounded, hr, hq]⟩

/-! ## The selector: the fallback -/

/-- On a text with at least one row the fallback collects one finite variance per candidate. -/
theorem collectVariances_spec (M : MathLib) {inp : Input} (hrows : inp.rows ≠ [])
    (seps : List Regexp) :
    ∃ vs, collectVariances M inp seps = some vs ∧ vs.length = seps.length ∧
      (∀ v ∈ vs, v ≠ F64.nan) ∧
      ∀ (k : ℕ) (c : Regexp), seps[k]? = some c →
        ∃ v, vs[k]? = some v ∧ getVarianceRounded M inp c passes = some v := by
  induction seps with
  | nil => exact ⟨[], rfl, rfl, by simp, by simp⟩
  | cons re rest ih =>
    obtain ⟨vs, hvs, hlen, hnan, hget⟩ := ih
    obtain ⟨q, hq⟩ := getVarianceRounded_finite M hrows re passes
    refine ⟨F64.fin q :: vs, by simp [collectVariances, hq, hvs], by simp [hlen], ?_, ?_⟩
    · intro v hv
      rcases List.mem_cons.mp hv with h | h
      · rw [h]; simp
      · exact hnan v h
    · intro k c hk
      cases k with
      | zero =>
        simp at hk; subst hk
        exact ⟨F64.fin q, by simp, hq⟩
      | succ k =>
        obtain ⟨v, hv, hvar⟩ := hget k c (by simpa using hk)
        exact ⟨v, by simpa using hv, hvar⟩

/-- On a text with at least one row the fallback returns the candidate at the earliest index
of the lowest variance. -/
theorem lowestVariance_spec (M : MathLib) {inp : Input} (hrows : inp.rows ≠ [])
    (seps : List Regexp) (hne : seps ≠ []) :
    ∃ vs k re v, collectVariances M inp seps = some vs ∧ k = extremaIndex minFunc vs ∧
      k < seps.length ∧ seps[k]? = some re ∧
      lowestVariance M inp seps = Outcome.returned re ∧
      getVarianceRounded M inp re passes = some v ∧
      (∀ c ∈ seps, ∃ v', getVarianceRounded M inp c passes = some v' ∧ F64.le v v' = true) ∧
      (∀ (k' : ℕ) (c : Regexp) (v' : F64), k' < k → seps[k']? = some c →
        getVarianceRounded M inp c passes = some v' → F64.lt v v' = true) := by
  obtain ⟨vs, hvs, hlen, hnan, hget⟩ := collectVariances_spec M hrows seps
  have hvsne : vs ≠ [] := by
    intro h
    rw [h] at hlen
    exact hne (List.length_eq_zero.mp hlen.symm)
  obtain ⟨e, he, hall, hbefore⟩ := extremaIndex_minFunc_spec vs hvsne hnan
  have hidx : extremaIndex minFunc vs < seps.length := by
    rw [← hlen]; exact (List.getElem?_eq_some.mp he).1
  have hre : seps[extremaIndex minFunc vs]? = some seps[extremaIndex minFunc vs] :=
    List.getElem?_eq_getElem hidx
  obtain ⟨v, hv, hvar⟩ := hget _ _ hre
  have hev : e = v := by rw [he] at hv; exact Option.some.inj hv
  subst hev
  refine ⟨vs, _, _, e, hvs, rfl, hidx, hre, ?_, hvar, ?_, ?_⟩
  · simp [lowestVariance, hvs, Nat.not_le.mpr hidx, hre]
  · intro c hc
    obtain ⟨k, hk⟩ := List.getElem?_of_mem hc
    obtain ⟨v', hv', hvar'⟩ := hget k c hk
    exact ⟨v', hvar', hall v' (List.getElem?_mem hv')⟩
  · intro k' c v' hk' hc hvar'
    obtain ⟨v'', hv'', hvar''⟩ := hget k' c hc
    rw [hvar'] at hvar''
    have : v' = v'' := Option.some.inj hvar''
    subst this
    exact hbefore k' v' hk' hv''

/-- On a text without rows `getColumnRegex` ends in the index-out-of-range panic of
`chauvenet`, at the first candidate of pass 2. -/
theorem getColumnRegex_no_rows (M : MathLib) {inp : Input} (hrows : inp.rows = []) :
    getColumnRegex M inp = Outcome.panic := by
  have h0 : ∀ c, getVariance M inp c 0 = some F64.nan := fun c => by
    simp [getVariance, applyChauvenet, getRowLengths_eq_nil hrows, variance_nil]
  have h1 : ∀ c, getVariance M inp c 1 = none := fun c => by
    simp [getVariance, applyChauvenet, getRowLengths_eq_nil hrows, chauvenet_nil]
  have hle : F64.le F64.nan threshold = false := rfl
  have t0 : ∀ c, testRegexp M inp c 0 = some false := fun c => rfl
  have t1 : ∀ c, testRegexp M inp c 1 = some false := fun c => by
    simp [testRegexp, testRegexpFrom, h0, hle]
  have t2 : ∀ c, testRegexp M inp c 2 = none := fun c => by
    simp [testRegexp, testRegexpFrom, h0, hle, h1]
  have f0 : ∀ seps, firstPassing M inp 0 seps = some none := by
    intro seps
    induction seps with
    | nil => rfl
    | cons c rest ih => simp [firstPassing, t0, ih]
  have f1 : ∀ seps, firstPassing M inp 1 seps = some none := by
    intro seps
    induction seps with
    | nil => rfl
    | cons c rest ih => simp [firstPassing, t1, ih]
  cases hseps : colSeps inp with
  | nil => exact absurd hseps (colSeps_ne_nil inp)
  | cons c rest =>
    have f2 : firstPassing M inp 2 (c :: rest) = none := by simp [firstPassing, t2]
    simp [getColumnRegex, passes, multiPassFrom, hseps, f0, f1, f2]

/-- The run of `getColumnRegex` never reaches the `log.Fatal` branch. -/
theorem getColumnRegex_ne_fatal (M : MathLib) (inp : Input) :
    getColumnRegex M inp ≠ Outcome.fatal := by
  by_cases hrows : inp.rows = []
  · rw [getColumnRegex_no_rows M hrows]; simp
  · have htot : ∀ c p, ∃ b, testRegexp M inp c p = some b :=
      fun c p => testRegexp_total M hrows c p
    rcases multiPassFrom_spec M inp htot (colSeps inp) passes 0 with
      ⟨p, k, re, _, _, _, hmp, _⟩ | ⟨hmp, _⟩
    · simp [getColumnRegex, hmp]
    · obtain ⟨vs, k, re, v, _, _, _, _, hlow, _⟩ :=
        lowestVariance_spec M hrows (colSeps inp) (colSeps_ne_nil inp)
      simp [getColumnRegex, hmp, hlow]

/-! ## A sample that is uniform but for one point -/

theorem oneOff_getElem_ne {a b : ℕ} {c c' : ℤ} {i : ℕ} {y : ℤ}
    (h : (List.replicate a c ++ c' :: List.replicate b c)[i]? = some y) (hi : i ≠ a) : y = c := by
  rcases Nat.lt_or_ge i a with hlt | hge
  · rw [List.getElem?_append_left (by simpa using hlt)] at h
    rw [List.getElem?_replicate_of_lt hlt] at h
    exact (Option.some.inj h).symm
  · rw [List.getElem?_append_right (by simpa using hge)] at h
    simp only [List.length_replicate] at h
    obtain ⟨j, hj⟩ : ∃ j, i - a = j + 1 := ⟨i - a - 1, by omega⟩
    rw [hj, List.getElem?_cons_succ] at h
    have hmem := List.getElem?_mem h
    exact (List.mem_replicate.mp hmem).2

theorem oneOff_meanQ (a b : ℕ) (c c' : ℤ) :
    meanQ (List.replicate a c ++ c' :: List.replicate b c) =
      (((a : ℚ) + b) * c + c') / ((a : ℚ) + b + 1) := by
  have hs : (List.replicate a c ++ c' :: List.replicate b c).sum = (a + b) * c + c' := by
    simp only [List.sum_append, List.sum_cons, List.sum_replicate, smul_eq_mul]
    ring
  have hl : (List.replicate a c ++ c' :: List.replicate b c).length = a + b + 1 := by
    simp only [List.length_append, List.length_cons, List.length_replicate]
    omega
  rw [meanQ, sumInt_eq_sum, hs, hl]
  push_cast
  rfl

/-- In a sample of at least 3 points, all equal but one, the odd point deviates most. -/
theorem oneOff_sq_lt (a b : ℕ) (c c' : ℤ) (hab : 2 ≤ a + b) (hc : c' ≠ c) :
    (meanQ (List.replicate a c ++ c' :: List.replicate b c) - (c : ℚ)) *
        (meanQ (List.replicate a c ++ c' :: List.replicate b c) - (c : ℚ)) <
      (meanQ (List.replicate a c ++ c' :: List.replicate b c) - (c' : ℚ)) *
        (meanQ (List.replicate a c ++ c' :: List.replicate b c) - (c' : ℚ)) := by
  rw [oneOff_meanQ]
  have hN : (0 : ℚ) < (a : ℚ) + b + 1 := by positivity
  have hab' : (2 : ℚ) ≤ (a : ℚ) + b := by exact_mod_cast hab
  have hd : ((c' : ℚ) - c) ≠ 0 := by
    intro h
    exact hc (by exact_mod_cast sub_eq_zero.mp h)
  have h1 : (((a : ℚ) + b) * c + c') / ((a : ℚ) + b + 1) - (c : ℚ) =
      ((c' : ℚ) - c) / ((a : ℚ) + b + 1) := by
    field_simp; ring
  have h2 : (((a : ℚ) + b) * c + c') / ((a : ℚ) + b + 1) - (c' : ℚ) =
      -(((a : ℚ) + b) * (((c' : ℚ) - c) / ((a : ℚ) + b + 1))) := by
    field_simp; ring
  rw [h1, h2]
  have hpos : 0 < ((c' : ℚ) - c) / ((a : ℚ) + b + 1) * (((c' : ℚ) - c) / ((a : ℚ) + b + 1)) :=
    mul_self_pos.mpr (div_ne_zero hd hN.ne.symm)
  have hn2 : (1 : ℚ) < ((a : ℚ) + b) * ((a : ℚ) + b) := by nlinarith
  have hexp : -(((a : ℚ) + b) * (((c' : ℚ) - c) / ((a : ℚ) + b + 1))) *
      -(((a : ℚ) + b) * (((c' : ℚ) - c) / ((a : ℚ) + b + 1))) =
      (((a : ℚ) + b) * ((a : ℚ) + b)) *
        (((c' : ℚ) - c) / ((a : ℚ) + b + 1) * (((c' : ℚ) - c) / ((a : ℚ) + b + 1))) := by ring
  rw [hexp]
  calc ((c' : ℚ) - c) / ((a : ℚ) + b + 1) * (((c' : ℚ) - c) / ((a : ℚ) + b + 1))
      = 1 * (((c' : ℚ) - c) / ((a : ℚ) + b + 1) * (((c' : ℚ) - c) / ((a : ℚ) + b + 1))) := by
        rw [one_mul]
    _ < _ := mul_lt_mul_of_pos_right hn2 hpos

/-- The two outcomes of `chauvenet` on a non-empty sample: the most deviant point is deleted,
or the sample is returned as it is. -/
theorem chauvenet_cases (M : MathLib) {data : List ℤ} (hne : data ≠ []) :
    ∃ idx x, data[idx]? = some x ∧ IsEarliestMax (getSquaredDifferences data) idx ∧
      (chauvenet M data = some (data.eraseIdx idx) ∨ chauvenet M data = some data) := by
  obtain ⟨hmax, x, hx⟩ := mostDeviant_spec hne
  refine ⟨_, x, hx, hmax, ?_⟩
  by_cases ho : isOutlier M (F64.ofInt x) data = true
  · left; simp [chauvenet, hx, ho, List.eraseIdx_eq_take_drop_succ]
  · right; simp [chauvenet, hx, ho]

/-- When `chauvenet` removes a point from a sample that is uniform but for one point, what
remains is a non-empty uniform sample. -/
theorem chauvenet_oneOff (M : MathLib) (a b : ℕ) (c c' : ℤ) (hc : c' ≠ c)
    (data : List ℤ) (hdata : data = List.replicate a c ++ c' :: List.replicate b c)
    (hout : chauvenet M data ≠ some data) :
    ∃ r v, chauvenet M data = some r ∧ r ≠ [] ∧ ∀ y ∈ r, y = v := by
  have hne : data ≠ [] := by rw [hdata]; simp
  have hab : 1 ≤ a + b := by
    by_contra h0
    have ha : a = 0 := by omega
    have hb : b = 0 := by omega
    subst ha hb
    apply hout
    rw [hdata]
    exact chauvenet_uniform M (by simp) (v := c') (by simp)
  have hlen : data.length = a + b + 1 := by
    rw [hdata]
    simp only [List.length_append, List.length_cons, List.length_replicate]
    omega
  obtain ⟨idx, x, hx, hmax, hch | hch⟩ := chauvenet_cases M hne
  swap
  · exact absurd hch hout
  have hidx := (List.getElem?_eq_some.mp hx).1
  have herase := List.length_eraseIdx_add_one hidx
  have hrne : data.eraseIdx idx ≠ [] := by
    intro hnil
    rw [hnil] at herase
    simp at herase
    omega
  by_cases h1 : a + b = 1
  · have hl1 : (data.eraseIdx idx).length = 1 := by omega
    obtain ⟨z, hz⟩ := List.length_eq_one.mp hl1
    exact ⟨_, z, hch, hrne, by rw [hz]; simp⟩
  · refine ⟨_, c, hch, hrne, ?_⟩
    intro y hy
    obtain ⟨i, hi, hiy⟩ := List.mem_eraseIdx_iff_getElem?.mp hy
    rw [hdata] at hiy
    by_cases hia : i = a
    · -- the index removed is not `a`, so its point is `c`, which deviates less than `c'`
      exfalso
      have hxa : idx ≠ a := fun h => hi (hia.trans h.symm)
      have hxc : x = c := by
        rw [hdata] at hx
        exact oneOff_getElem_ne hx hxa
      obtain ⟨e, he, hall, _⟩ := hmax
      rw [getSquaredDifferences_eq hne] at he hall
      rw [List.getElem?_map, hx] at he
      have he' := (Option.some.inj he).symm
      have hmem : F64.fin ((meanQ data - (c' : ℚ)) * (meanQ data - (c' : ℚ))) ∈
          List.map (fun (xn : ℤ) => F64.fin ((meanQ data - (xn : ℚ)) * (meanQ data - (xn : ℚ))))
            data :=
        List.mem_map.mpr ⟨c', by rw [hdata]; simp, rfl⟩
      have hle := hall _ hmem
      rw [he', hxc] at hle
      simp only [F64.le, decide_eq_true_eq] at hle
      rw [hdata] at hle
      exact absurd hle (not_le.mpr (oneOff_sq_lt a b c c' (by omega) hc))
    · exact oneOff_getElem_ne hiy hia

/-- The variance after one application of the filter, and the consistency test at tolerance 2,
for a candidate whose filtered sample is uniform. -/
theorem testRegexp_two_of_filtered_uniform (M : MathLib) (inp : Input) (colSep : Regexp)
    {r : List ℤ} {v : ℤ}
    (hch : chauvenet M (getRowLengths (SeparateString inp colSep)) = some r) (hrne : r ≠ [])
    (hr : ∀ y ∈ r, y = v) :
    getVariance M inp colSep 1 = some (F64.fin 0) ∧ testRegexp M inp colSep 2 = some true := by
  have h1 : getVariance M inp colSep 1 = some (F64.fin 0) := by
    simp [getVariance, applyChauvenet, hch, variance_uniform hrne hr]
  have h0 : getVariance M inp colSep 0 =
      some (variance (getRowLengths (SeparateString inp colSep))) := by
    simp [getVariance, applyChauvenet]
  have hle : F64.le (F64.fin 0) threshold = true := by
    simp [F64.le, threshold]
  refine ⟨h1, ?_⟩
  by_cases h : F64.le (variance (getRowLengths (SeparateString inp colSep))) threshold = true
  · simp [testRegexp, testRegexpFrom, h0, h]
  · simp [testRegexp, testRegexpFrom, h0, h, h1, hle]

/-! ## The sign of the variance -/

theorem varianceQ_nonneg (data : List ℤ) : 0 ≤ varianceQ data := by
  unfold varianceQ
  apply div_nonneg
  · apply List.sum_nonneg
    intro q hq
    obtain ⟨x, _, rfl⟩ := List.mem_map.mp hq
    exact mul_self_nonneg _
  · exact Nat.cast_nonneg _

/-- A non-empty sample of variance 0 has all its points equal to the mean. -/
theorem eq_meanQ_of_varianceQ_zero {data : List ℤ} (hne : data ≠ []) (h : varianceQ data = 0) :
    ∀ x ∈ data, (x : ℚ) = meanQ data := by
  have hlen : (data.length : ℚ) ≠ 0 := by exact_mod_cast length_cast_ne_zero hne
  have hsum : (data.map (fun (xn : ℤ) =>
      (meanQ data - (xn : ℚ)) * (meanQ data - (xn : ℚ)))).sum = 0 := by
    unfold varianceQ at h
    rcases div_eq_zero_iff.mp h with h0 | h0
    · exact h0
    · exact absurd h0 hlen
  intro x hx
  have hterm : (meanQ data - (x : ℚ)) * (meanQ data - (x : ℚ)) = 0 := by
    apply List.all_zero_of_le_zero_le_of_sum_eq_zero _ hsum
    · exact List.mem_map.mpr ⟨x, hx, rfl⟩
    · intro q hq
      obtain ⟨y, _, rfl⟩ := List.mem_map.mp hq
      exact mul_self_nonneg _
  have := mul_self_eq_zero.mp hterm
  linarith

/-- The variance of a non-empty sample is 0 exactly when all its points are equal. -/
theorem varianceQ_eq_zero_iff {data : List ℤ} (hne : data ≠ []) :
    varianceQ data = 0 ↔ ∀ x ∈ data, ∀ y ∈ data, x = y := by
  constructor
  · intro h x hx y hy
    have hx' := eq_meanQ_of_varianceQ_zero hne h x hx
    have hy' := eq_meanQ_of_varianceQ_zero hne h y hy
    exact_mod_cast hx'.trans hy'.symm
  · intro h
    obtain ⟨v, hv⟩ := List.exists_mem_of_ne_nil _ hne
    have hu : ∀ x ∈ data, x = v := fun x hx => h x hx v hv
    have := variance_uniform hne hu
    rw [variance_eq hne] at this
    exact F64.fin.inj this

/-- One application of `chauvenet` to a non-empty sample removes at most one point. -/
theorem chauvenet_length (M : MathLib) {data : List ℤ} (hne : data ≠ []) :
    ∃ r, chauvenet M data = some r ∧ r ≠ [] ∧ r.length ≤ data.length ∧
      data.length ≤ r.length + 1 := by
  obtain ⟨r, hr, hrne, hle⟩ := chauvenet_nonempty M hne
  refine ⟨r, hr, hrne, hle, ?_⟩
  obtain ⟨idx, x, hx, _, hch | hch⟩ := chauvenet_cases M hne
  · rw [hr] at hch
    have hidx := (List.getElem?_eq_some.mp hx).1
    have := List.length_eraseIdx_add_one hidx
    rw [← Option.some.inj hch] at this
    omega
  · rw [hr] at hch
    rw [Option.some.inj hch]
    omega

/-- Applying `chauvenet` `k` times to a non-empty sample of `N` points leaves between
`max(1, N - k)` and `N` points. -/
theorem applyChauvenet_length (M : MathLib) (k : ℕ) :
    ∀ {data : List ℤ}, data ≠ [] →
      ∃ r, applyChauvenet M k data = some r ∧ r ≠ [] ∧
        max 1 (data.length - k) ≤ r.length ∧ r.length ≤ data.length := by
  induction k with
  | zero =>
    intro data hne
    have hpos : 0 < data.length := List.length_pos.mpr hne
    exact ⟨data, rfl, hne, by simp; omega, le_refl _⟩
  | succ k ih =>
    intro data hne
    obtain ⟨r, hr, hrne, hle, hge⟩ := chauvenet_length M hne
    obtain ⟨r', hr', hrne', hlo, hhi⟩ := ih hrne
    refine ⟨r', by simp [applyChauvenet, hr, hr'], hrne', ?_, le_trans hhi hle⟩
    have hpos : 0 < r'.length := List.length_pos.mpr hrne'
    have h1 : r.length - k ≤ r'.length := le_trans (le_max_right _ _) hlo
    apply max_le
    · omega
    · omega

/-! ## The multi-pass search in terms of the variances after 0 and 1 removals -/

/-- Without removal `getVariance` is the variance of the row lengths. -/
theorem getVariance_zero (M : MathLib) (inp : Input) (colSep : Regexp) :
    getVariance M inp colSep 0 = some (variance (getRowLengths (SeparateString inp colSep))) :=
  rfl

/-- At tolerance 1 `testRegexp` judges the unfiltered variance only. -/
theorem testRegexp_one (M : MathLib) (inp : Input) (colSep : Regexp) :
    testRegexp M inp colSep 1 =
      some (F64.le (variance (getRowLengths (SeparateString inp colSep))) threshold) := by
  by_cases h : F64.le (variance (getRowLengths (SeparateString inp colSep))) threshold = true
  · simp [testRegexp, testRegexpFrom, getVariance_zero, h]
  · simp [testRegexp, testRegexpFrom, getVariance_zero, h]

/-- At tolerance 2 `testRegexp` judges the variances after 0 and after 1 removals. -/
theorem testRegexp_two (M : MathLib) (inp : Input) (colSep : Regexp) :
    testRegexp M inp colSep 2 =
      match getVariance M inp colSep 0 with
      | none => none
      | some v0 =>
        if F64.le v0 threshold then some true
        else
          match getVariance M inp colSep 1 with
          | none => none
          | some v1 => if F64.le v1 threshold then some true else some false := by
  simp only [testRegexp, testRegexpFrom]

/-- The inner loop gives the same result for tests that agree on every candidate. -/
theorem firstPassing_congr (M M' : MathLib) (inp inp' : Input) (i : ℕ)
    (h : ∀ c, testRegexp M inp c i = testRegexp M' inp' c i) (seps : List Regexp) :
    firstPassing M inp i seps = firstPassing M' inp' i seps := by
  induction seps with
  | nil => rfl
  | cons re rest ih => simp only [firstPassing, h re, ih]

/-- Pass 0 of the multi-pass search returns no candidate. -/
theorem firstPassing_zero (M : MathLib) (inp : Input) (seps : List Regexp) :
    firstPassing M inp 0 seps = some none := by
  induction seps with
  | nil => rfl
  | cons re rest ih => simp [firstPassing, testRegexp_zero, ih]

/-- The three passes of the search: pass 0 returns nothing, then pass 1, then pass 2. -/
theorem multiPassFrom_three (M : MathLib) (inp : Input) (seps : List Regexp) :
    multiPassFrom M inp seps 0 passes =
      match firstPassing M inp 1 seps with
      | none => none
      | some (some re) => some (some re)
      | some none =>
        match firstPassing M inp 2 seps with
        | none => none
        | some (some re) => some (some re)
        | some none => some none := by
  simp only [passes, multiPassFrom, firstPassing_zero]

/-- Pass 1 returns the first candidate of the list whose unfiltered variance is within the
threshold, or falls through when there is none. -/
theorem firstPassing_one_spec (M : MathLib) (inp : Input) (seps : List Regexp) :
    (∃ k re, seps[k]? = some re ∧ firstPassing M inp 1 seps = some (some re) ∧
        F64.le (variance (getRowLengths (SeparateString inp re))) threshold = true ∧
        ∀ (k' : ℕ) (c : Regexp), k' < k → seps[k']? = some c →
          F64.le (variance (getRowLengths (SeparateString inp c))) threshold = false) ∨
    (firstPassing M inp 1 seps = some none ∧
      ∀ c ∈ seps, F64.le (variance (getRowLengths (SeparateString inp c))) threshold = false) := by
  induction seps with
  | nil => right; exact ⟨rfl, by simp⟩
  | cons re rest ih =>
    by_cases hb : F64.le (variance (getRowLengths (SeparateString inp re))) threshold = true
    · left
      refine ⟨0, re, by simp, by simp [firstPassing, testRegexp_one, hb], hb, ?_⟩
      intro k' c hk'; exact absurd hk' (Nat.not_lt_zero _)
    · have hb' : F64.le (variance (getRowLengths (SeparateString inp re))) threshold = false := by
        simpa using hb
      rcases ih with ⟨k, re', hk, hfp, hpass, hbefore⟩ | ⟨hfp, hnone⟩
      · left
        refine ⟨k + 1, re', by simpa using hk, by simp [firstPassing, testRegexp_one, hb', hfp],
          hpass, ?_⟩
        intro k' c hk' hc
        cases k' with
        | zero => simp at hc; subst hc; exact hb'
        | succ k' => exact hbefore k' c (by omega) (by simpa using hc)
      · right
        refine ⟨by simp [firstPassing, testRegexp_one, hb', hfp], ?_⟩
        intro c hc
        rcases List.mem_cons.mp hc with h | h
        · subst h; exact hb'
        · exact hnone c h

/-- The selector returns the first surviving candidate whose unfiltered row-length variance is
within the threshold, when there is one. -/
theorem getColumnRegex_of_first_unfiltered (M : MathLib) (inp : Input) (k : ℕ) (re : Regexp)
    (hk : (colSeps inp)[k]? = some re)
    (hle : F64.le (variance (getRowLengths (SeparateString inp re))) threshold = true)
    (hbefore : ∀ (k' : ℕ) (c : Regexp), k' < k → (colSeps inp)[k']? = some c →
      F64.le (variance (getRowLengths (SeparateString inp c))) threshold = false) :
    getColumnRegex M inp = Outcome.returned re := by
  rcases firstPassing_one_spec M inp (colSeps inp) with ⟨k₀, re₀, hk₀, hfp, hle₀, hb₀⟩ | ⟨_, hnone⟩
  · have hkk : k₀ = k := by
      rcases Nat.lt_trichotomy k₀ k with h | h | h
      · have := hbefore k₀ re₀ h hk₀
        rw [hle₀] at this; cases this
      · exact h
      · have := hb₀ k re h hk
        rw [hle] at this; cases this
    subst hkk
    rw [hk] at hk₀
    have hre : re = re₀ := Option.some.inj hk₀
    subst hre
    simp [getColumnRegex, multiPassFrom_three, hfp]
  · have := hnone re (List.getElem?_mem hk)
    rw [hle] at this; cases this

/-- When some surviving candidate has its unfiltered variance within the threshold, there is a
first such candidate in priority order. -/
theorem exists_first_unfiltered (inp : Input) (seps : List Regexp)
    (h : ∃ c ∈ seps, F64.le (variance (getRowLengths (SeparateString inp c))) threshold = true) :
    ∃ k re, seps[k]? = some re ∧
      F64.le (variance (getRowLengths (SeparateString inp re))) threshold = true ∧
      ∀ (k' : ℕ) (c : Regexp), k' < k → seps[k']? = some c →
        F64.le (variance (getRowLengths (SeparateString inp c))) threshold = false := by
  rcases firstPassing_one_spec approxMath inp seps with ⟨k, re, hk, _, hle, hb⟩ | ⟨_, hnone⟩
  · exact ⟨k, re, hk, hle, hb⟩
  · obtain ⟨c, hc, hle⟩ := h
    rw [hnone c hc] at hle; cases hle

/-! ## A sample of two points -/

theorem meanQ_pair (a b : ℤ) : meanQ [a, b] = ((a : ℚ) + b) / 2 := by
  simp [meanQ, sumInt]

theorem varianceQ_pair (a b : ℤ) : varianceQ [a, b] = ((a : ℚ) - b) ^ 2 / 4 := by
  rw [varianceQ, meanQ_pair]
  simp only [List.map_cons, List.map_nil, List.sum_cons, List.sum_nil, List.length_cons,
    List.length_nil]
  push_cast
  ring

/-- The two squared differences of a sample of two points are equal, so the most deviant
point is the first. -/
theorem extremaIndex_pair (a b : ℤ) :
    extremaIndex maxFunc (getSquaredDifferences [a, b]) = 0 := by
  rw [getSquaredDifferences_eq (List.cons_ne_nil _ _), meanQ_pair]
  have h : ¬ (((a : ℚ) + b) / 2 - a) * (((a : ℚ) + b) / 2 - a) <
      (((a : ℚ) + b) / 2 - b) * (((a : ℚ) + b) / 2 - b) := by
    have : (((a : ℚ) + b) / 2 - a) * (((a : ℚ) + b) / 2 - a) =
        (((a : ℚ) + b) / 2 - b) * (((a : ℚ) + b) / 2 - b) := by ring
    rw [this]; exact lt_irrefl _
  simp [extremaIndex, extremaLoop, maxFunc, F64.lt, h]

/-- The standard deviation of two points is half their distance, for a square root that is
exact on the square `(a - b)^2 / 4`. -/
theorem stdDev_pair (M : MathLib) (a b : ℤ)
    (hsqrt : M.sqrtPos (((a : ℚ) - b) ^ 2 / 4) = |(a : ℚ) - b| / 2) :
    stdDev M [a, b] = F64.fin (|(a : ℚ) - b| / 2) := by
  rw [stdDev, variance_eq (List.cons_ne_nil _ _), varianceQ_pair]
  by_cases hd : (a : ℚ) - b = 0
  · simp [sqrt, hd]
  · have hpos : 0 < ((a : ℚ) - b) ^ 2 / 4 := by positivity
    simp only [sqrt, if_neg (not_lt.mpr hpos.le), if_neg hpos.ne.symm, hsqrt]

/-- The density of the first of two distinct points, under the mean and standard deviation of
the two. -/
theorem normalDistribution_pair (M : MathLib) (a b : ℤ) (hab : a ≠ b) (hpi : 0 < M.pi)
    (hs : 0 < M.sqrtPos (2 * M.pi)) :
    normalDistribution M (F64.ofInt a) (F64.fin (((a : ℚ) + b) / 2))
        (F64.fin (|(a : ℚ) - b| / 2)) =
      F64.fin (1 / (|(a : ℚ) - b| / 2 * M.sqrtPos (2 * M.pi)) * M.expE (-1 / 2)) := by
  have hd : (a : ℚ) - b ≠ 0 := by
    intro h; exact hab (by exact_mod_cast sub_eq_zero.mp h)
  have habs : 0 < |(a : ℚ) - b| := abs_pos.mpr hd
  have h2pi : (0 : ℚ) < 2 * M.pi := by linarith
  have hsq : sqrt M (F64.fin (2 * M.pi)) = F64.fin (M.sqrtPos (2 * M.pi)) := by
    simp only [sqrt, if_neg (not_lt.mpr h2pi.le), if_neg h2pi.ne.symm]
  have hden : |(a : ℚ) - b| / 2 * M.sqrtPos (2 * M.pi) ≠ 0 := by positivity
  have hcoef : F64.div (F64.fin 1)
      (F64.mul (F64.fin (|(a : ℚ) - b| / 2)) (sqrt M (F64.fin (2 * M.pi)))) =
      F64.fin (1 / (|(a : ℚ) - b| / 2 * M.sqrtPos (2 * M.pi))) := by
    rw [hsq]
    simp only [F64.mul, F64.div, if_neg hden]
  have hsigma2 : (2 : ℚ) * (|(a : ℚ) - b| / 2 * (|(a : ℚ) - b| / 2)) ≠ 0 := by positivity
  have hexp : F64.neg (F64.div
      (F64.pow2 (F64.sub (F64.ofInt a) (F64.fin (((a : ℚ) + b) / 2))))
      (F64.mul (F64.fin 2) (F64.pow2 (F64.fin (|(a : ℚ) - b| / 2))))) = F64.fin (-1 / 2) := by
    simp only [F64.ofInt, F64.sub, F64.neg, F64.add, F64.pow2, F64.mul, F64.div, if_neg hsigma2]
    congr 1
    have habs2 : |(a : ℚ) - b| * |(a : ℚ) - b| = ((a : ℚ) - b) * ((a : ℚ) - b) := abs_mul_abs_self _
    field_simp
    nlinarith [habs2]
  have hpow : powE M (F64.fin (-1 / 2)) = F64.fin (M.expE (-1 / 2)) := by
    have : (-1 / 2 : ℚ) ≠ 0 := by norm_num
    simp only [powE, if_neg this]
  show F64.mul (F64.div (F64.fin 1)
      (F64.mul (F64.fin (|(a : ℚ) - b| / 2)) (sqrt M (F64.fin (2 * M.pi)))))
    (powE M (F64.neg (F64.div
      (F64.pow2 (F64.sub (F64.ofInt a) (F64.fin (((a : ℚ) + b) / 2))))
      (F64.mul (F64.fin 2) (F64.pow2 (F64.fin (|(a : ℚ) - b| / 2))))))) = _
  rw [hcoef, hexp, hpow]
  rfl

/-- Whether `chauvenet` classifies the first of two distinct points as an outlier: the density
`2 e^(-1/2) / (|a - b| sqrt(2 pi))` is compared with `1/4`. -/
theorem isOutlier_pair (M : MathLib) (a b : ℤ) (hab : a ≠ b) (hpi : 0 < M.pi)
    (hs : 0 < M.sqrtPos (2 * M.pi))
    (hsqrt : M.sqrtPos (((a : ℚ) - b) ^ 2 / 4) = |(a : ℚ) - b| / 2) :
    isOutlier M (F64.ofInt a) [a, b] =
      decide (8 * M.expE (-1 / 2) < |(a : ℚ) - b| * M.sqrtPos (2 * M.pi)) := by
  have hd : (a : ℚ) - b ≠ 0 := by
    intro h; exact hab (by exact_mod_cast sub_eq_zero.mp h)
  have habs : 0 < |(a : ℚ) - b| := abs_pos.mpr hd
  have hthr : F64.div (F64.ofInt 1) (F64.ofInt (2 * (([a, b] : List ℤ).length : ℤ))) =
      F64.fin (1 / 4) := by
    rw [chauvenet_threshold_eq (List.cons_ne_nil _ _)]
    norm_num
  simp only [isOutlier]
  rw [hthr, meanInt_eq (List.cons_ne_nil _ _), meanQ_pair, stdDev_pair M a b hsqrt,
    normalDistribution_pair M a b hab hpi hs]
  simp only [F64.lt]
  congr 1
  apply propext
  have hpos : 0 < |(a : ℚ) - b| / 2 * M.sqrtPos (2 * M.pi) := by positivity
  rw [one_div, inv_mul_lt_iff₀ hpos]
  constructor <;> intro h <;> linarith

/-- The function `chauvenet` on two points: the first is removed or the sample is kept. -/
theorem chauvenet_pair (M : MathLib) (a b : ℤ) :
    chauvenet M [a, b] = if isOutlier M (F64.ofInt a) [a, b] then some [b] else some [a, b] := by
  simp [chauvenet, extremaIndex_pair]

/-! ## The selector: the order of the multi-pass search -/

/-- The nested loops of the multi-pass search, in terms of the code's own `testRegexp`: if
`testRegexp(re, pass)` is true for some surviving candidate at some pass 0, 1 or 2, then
`getColumnRegex` returns the first such candidate in the order of (pass, position in the
priority list), the tab pattern if it survives and is accepted at that earliest pass. -/
theorem getColumnRegex_first_accepted (M : MathLib) (inp : Input)
    (h : ∃ p c, p < passes ∧ c ∈ colSeps inp ∧ testRegexp M inp c p = some true) :
    ∃ p k re, IsFirstPassing M inp p k re ∧ getColumnRegex M inp = Outcome.returned re ∧
      (Regexp.tabs ∈ colSeps inp → testRegexp M inp Regexp.tabs p = some true →
        re = Regexp.tabs) := by
  obtain ⟨p₀, c₀, hp₀, hc₀, hpass₀⟩ := h
  have hrows : inp.rows ≠ [] := rows_ne_nil_of_testRegexp M hpass₀ (Or.inl rfl)
  have htot : ∀ c p, ∃ b, testRegexp M inp c p = some b := fun c p => testRegexp_total M hrows c p
  rcases multiPassFrom_spec M inp htot (colSeps inp) passes 0 with
    ⟨p, k, re, _, hp, hk, hmp, hpass, hearlier, hbefore⟩ | ⟨_, hall⟩
  · refine ⟨p, k, re, ⟨by omega, hk, hpass, ?_, ?_⟩, by simp [getColumnRegex, hmp], ?_⟩
    · intro p' c hp' hc
      rw [hearlier p' c (Nat.zero_le _) hp' hc]; simp
    · intro k' c hk' hc
      rw [hbefore k' c hk' hc]; simp
    · intro htab htabpass
      have h0 := colSeps_head_tabs inp htab
      cases k with
      | zero => rw [h0] at hk; exact (Option.some.inj hk).symm
      | succ k =>
        have := hbefore 0 Regexp.tabs (Nat.succ_pos k) h0
        rw [htabpass] at this; cases this
  · have := hall p₀ c₀ (Nat.zero_le _) (by omega) hc₀
    rw [hpass₀] at this; cases this

/-! ## C1: the extremum finder -/

/-- C1 (as amended): for every non-empty list of scores none of which is NaN, `extremaIndex`
with `maxFunc` returns an index in range holding the earliest maximum, and with `minFunc`
an index in range holding the earliest minimum. -/
theorem extremaIndex_earliest (data : List F64) (hne : data ≠ [])
    (hnan : ∀ x ∈ data, x ≠ F64.nan) :
    (extremaIndex maxFunc data < data.length ∧ IsEarliestMax data (extremaIndex maxFunc data)) ∧
    (extremaIndex minFunc data < data.length ∧ IsEarliestMin data (extremaIndex minFunc data)) := by
  have hmax := extremaIndex_maxFunc_spec data hne hnan
  have hmin := extremaIndex_minFunc_spec data hne hnan
  refine ⟨⟨?_, hmax⟩, ⟨?_, hmin⟩⟩
  · obtain ⟨e, he, _⟩ := hmax
    exact (List.getElem?_eq_some.mp he).1
  · obtain ⟨e, he, _⟩ := hmin
    exact (List.getElem?_eq_some.mp he).1

/-- C1, witness: the scores `[1, 3, 3, 0]`. -/
theorem extremaIndex_earliest_witness :
    (extremaIndex maxFunc [F64.fin 1, F64.fin 3, F64.fin 3, F64.fin 0] < 4 ∧
      IsEarliestMax [F64.fin 1, F64.fin 3, F64.fin 3, F64.fin 0]
        (extremaIndex maxFunc [F64.fin 1, F64.fin 3, F64.fin 3, F64.fin 0])) ∧
    (extremaIndex minFunc [F64.fin 1, F64.fin 3, F64.fin 3, F64.fin 0] < 4 ∧
      IsEarliestMin [F64.fin 1, F64.fin 3, F64.fin 3, F64.fin 0]
        (extremaIndex minFunc [F64.fin 1, F64.fin 3, F64.fin 3, F64.fin 0])) :=
  extremaIndex_earliest [F64.fin 1, F64.fin 3, F64.fin 3, F64.fin 0] (by simp) (by simp)

/-- C1, counterexample: on the scores `[NaN, 1]` `extremaIndex` with `maxFunc` returns index 0,
whose element NaN is not `>=` the element 1, so index 0 does not hold a maximum. -/
theorem extremaIndex_nan_not_max :
    extremaIndex maxFunc [F64.nan, F64.fin 1] = 0 ∧
    ¬ IsEarliestMax [F64.nan, F64.fin 1] (extremaIndex maxFunc [F64.nan, F64.fin 1]) := by
  have h0 : extremaIndex maxFunc [F64.nan, F64.fin 1] = 0 := by
    simp [extremaIndex, extremaLoop, maxFunc, F64.lt]
  refine ⟨h0, ?_⟩
  rw [h0]
  rintro ⟨e, he, hall, _⟩
  have he' : e = F64.nan := by simpa using he.symm
  subst he'
  have := hall (F64.fin 1) (by simp)
  simp [F64.le] at this

/-! ## C2, C3: Chauvenet's criterion -/

/-- C2: for every non-empty list of measurements, the index
`extremaIndex(maxFunc, getSquaredDifferences(data))` is in range and holds the earliest largest
squared difference, and `chauvenet` returns the list with exactly the element `x` at that index
deleted (the others in their order) if `normalDistribution(x, mean, stdDev) < 1/(2*N)`, and the
list unchanged otherwise. -/
theorem chauvenet_deletes_most_deviant (M : MathLib) (data : List ℤ) (hne : data ≠ []) :
    IsEarliestMax (getSquaredDifferences data) (extremaIndex maxFunc (getSquaredDifferences data)) ∧
    ∃ x, data[extremaIndex maxFunc (getSquaredDifferences data)]? = some x ∧
      chauvenet M data =
        (if F64.lt (normalDistribution M (F64.ofInt x) (meanInt data) (stdDev M data))
            (F64.fin (1 / (2 * (data.length : ℚ)))) = true
         then some (data.eraseIdx (extremaIndex maxFunc (getSquaredDifferences data)))
         else some data) ∧
      (data.eraseIdx (extremaIndex maxFunc (getSquaredDifferences data))).length + 1 =
        data.length ∧
      data.eraseIdx (extremaIndex maxFunc (getSquaredDifferences data)) =
        data.take (extremaIndex maxFunc (getSquaredDifferences data)) ++
          data.drop (extremaIndex maxFunc (getSquaredDifferences data) + 1) := by
  obtain ⟨hmax, x, hx⟩ := mostDeviant_spec hne
  refine ⟨hmax, x, hx, ?_, ?_, List.eraseIdx_eq_take_drop_succ _ _⟩
  · simp only [chauvenet, hx, isOutlier, chauvenet_threshold_eq hne,
      ← List.eraseIdx_eq_take_drop_succ]
  · exact List.length_eraseIdx_add_one (List.getElem?_eq_some.mp hx).1

/-- C2, witness: the sample `[3, 3, 2]`. -/
theorem chauvenet_deletes_most_deviant_witness :
    IsEarliestMax (getSquaredDifferences [3, 3, 2])
      (extremaIndex maxFunc (getSquaredDifferences [3, 3, 2])) ∧
    ∃ x, ([3, 3, 2] : List ℤ)[extremaIndex maxFunc (getSquaredDifferences [3, 3, 2])]? = some x ∧
      chauvenet approxMath [3, 3, 2] =
        (if F64.lt (normalDistribution approxMath (F64.ofInt x) (meanInt [3, 3, 2])
              (stdDev approxMath [3, 3, 2]))
            (F64.fin (1 / (2 * (([3, 3, 2] : List ℤ).length : ℚ)))) = true
         then some (([3, 3, 2] : List ℤ).eraseIdx
            (extremaIndex maxFunc (getSquaredDifferences [3, 3, 2])))
         else some [3, 3, 2]) ∧
      (([3, 3, 2] : List ℤ).eraseIdx
          (extremaIndex maxFunc (getSquaredDifferences [3, 3, 2]))).length + 1 =
        ([3, 3, 2] : List ℤ).length ∧
      ([3, 3, 2] : List ℤ).eraseIdx (extremaIndex maxFunc (getSquaredDifferences [3, 3, 2])) =
        ([3, 3, 2] : List ℤ).take (extremaIndex maxFunc (getSquaredDifferences [3, 3, 2])) ++
          ([3, 3, 2] : List ℤ).drop (extremaIndex maxFunc (getSquaredDifferences [3, 3, 2]) + 1) :=
  chauvenet_deletes_most_deviant approxMath [3, 3, 2] (by simp)

/-- C3 (as amended): for every single-element list `chauvenet` returns the list unchanged
(the density is NaN, which is below no threshold). -/
theorem chauvenet_single (M : MathLib) (x : ℤ) : chauvenet M [x] = some [x] :=
  chauvenet_uniform M (List.cons_ne_nil x []) (v := x) (by simp)

/-- C3, counterexample: on the empty list, which has fewer than 2 elements, `chauvenet` does
not return the list: `extremaIndex` yields index 0 and `data[0]` is out of range. -/
theorem chauvenet_empty_panics : chauvenet approxMath [] = none ∧ chauvenet approxMath [] ≠ some [] := by
  constructor
  · rfl
  · simp [chauvenet, getSquaredDifferences, extremaIndex]

/-! ## C4, C5: the consistency test and the pre-filter -/

/-- C4: on the text of rows "a\tb" and "c\td" the tab pattern splits every row into 2 cells and
the unfiltered row-length variance is 0, below 0.1, and yet `testRegexp` at tolerance 0 returns
false: its loop `for i := 0; i < outliers; i++` makes no iteration at tolerance 0. -/
theorem testRegexp_zero_rejects_uniform :
    getRowLengths (SeparateString (tabbedText ["a\tb", "c\td"]) Regexp.tabs) = [2, 2] ∧
    getVariance approxMath (tabbedText ["a\tb", "c\td"]) Regexp.tabs 0 = some (F64.fin 0) ∧
    F64.le (F64.fin 0) threshold = true ∧
    testRegexp approxMath (tabbedText ["a\tb", "c\td"]) Regexp.tabs 0 = some false := by
  decide!

/-- C5: `matchesMost` keeps a candidate that matches 0 of 1 row, and one that matches 1 of 3
rows: `count >= len(rows) / 2` divides as integers, and `1 / 2 = 0`, `3 / 2 = 1`. -/
theorem matchesMost_keeps_minority :
    matchCount (tabbedText ["abc"]) Regexp.tabs ["abc"] = 0 ∧
    matchesMost (tabbedText ["abc"]) Regexp.tabs ["abc"] = true ∧
    matchCount (tabbedText ["a\tb", "c", "d"]) Regexp.tabs ["a\tb", "c", "d"] = 1 ∧
    matchesMost (tabbedText ["a\tb", "c", "d"]) Regexp.tabs ["a\tb", "c", "d"] = true := by
  decide!

/-! ## C6, C7, C8: the selector -/

/-- C6: on the text of seventeen rows "a\tb c d", two rows "a\tb\tc d" and one row each of 9
and of 12 tab-separated cells, the tab pattern and the any-whitespace pattern both survive the
pre-filter and both first pass the consistency test (variance `<= 0.1` after some `i` in
`[0, k]` removals) at pass 2, the tab pattern with variance 34/361 after two removals; the
multi-pass loop nevertheless returns no candidate, and `getColumnRegex` returns the
any-whitespace pattern from the fallback: `testRegexp(re, 2)` judges the variances after 0 and
1 removals only. -/
theorem multiPass_skips_first_consistent :
    colSeps lateConsistentText = [Regexp.tabs, Regexp.anyWhitespace] ∧
    specConsistent approxMath lateConsistentText Regexp.tabs 0 = false ∧
    specConsistent approxMath lateConsistentText Regexp.tabs 1 = false ∧
    specConsistent approxMath lateConsistentText Regexp.tabs 2 = true ∧
    specConsistent approxMath lateConsistentText Regexp.anyWhitespace 0 = false ∧
    specConsistent approxMath lateConsistentText Regexp.anyWhitespace 1 = false ∧
    specConsistent approxMath lateConsistentText Regexp.anyWhitespace 2 = true ∧
    getVariance approxMath lateConsistentText Regexp.tabs 2 = some (F64.fin (34 / 361)) ∧
    testRegexp approxMath lateConsistentText Regexp.tabs 2 = some false ∧
    multiPassFrom approxMath lateConsistentText (colSeps lateConsistentText) 0 passes =
      some none ∧
    getColumnRegex approxMath lateConsistentText = Outcome.returned Regexp.anyWhitespace := by
  decide!

/-- C7 (as amended): if no surviving candidate passes the consistency test at any of the three
passes, then `getColumnRegex` returns the surviving candidate whose variance as float64
computes it, after 3 applications of the outlier filter, is the lowest among the surviving
candidates, the earliest in priority order among those of equal computed variance. -/
theorem getColumnRegex_fallback_lowest (M : MathLib) (inp : Input)
    (h : ∀ p c, p < passes → c ∈ colSeps inp → testRegexp M inp c p = some false) :
    ∃ k re v, (colSeps inp)[k]? = some re ∧ getColumnRegex M inp = Outcome.returned re ∧
      getVarianceRounded M inp re 3 = some v ∧
      (∀ c ∈ colSeps inp, ∃ v', getVarianceRounded M inp c 3 = some v' ∧ F64.le v v' = true) ∧
      (∀ (k' : ℕ) (c : Regexp) (v' : F64), k' < k → (colSeps inp)[k']? = some c →
        getVarianceRounded M inp c 3 = some v' → F64.lt v v' = true) := by
  obtain ⟨c₀, hc₀⟩ := List.exists_mem_of_ne_nil _ (colSeps_ne_nil inp)
  have hrows : inp.rows ≠ [] :=
    rows_ne_nil_of_testRegexp M (h 2 c₀ (by decide) hc₀) (Or.inr (le_refl 2))
  have htot : ∀ c p, ∃ b, testRegexp M inp c p = some b := fun c p => testRegexp_total M hrows c p
  rcases multiPassFrom_spec M inp htot (colSeps inp) passes 0 with
    ⟨p, k, re, _, hp, hk, _, hpass, _⟩ | ⟨hmp, _⟩
  · have := h p re (by omega) (List.getElem?_mem hk)
    rw [hpass] at this; cases this
  · obtain ⟨_, k, re, v, _, _, _, hre, hlow, hvar, hall, hbefore⟩ :=
      lowestVariance_spec M hrows (colSeps inp) (colSeps_ne_nil inp)
    exact ⟨k, re, v, hre, by simp [getColumnRegex, hmp, hlow], hvar, hall, hbefore⟩

/-- C7, witness: the text of rows "a b", three times "a\tb", and "a\tb c"; no candidate passes,
the computed variances of the two surviving candidates differ, and the any-whitespace pattern
is returned by the fallback. -/
theorem getColumnRegex_fallback_lowest_witness :
    ∃ k re v, (colSeps tiedVariancesText)[k]? = some re ∧
      getColumnRegex approxMath tiedVariancesText = Outcome.returned re ∧
      getVarianceRounded approxMath tiedVariancesText re 3 = some v ∧
      (∀ c ∈ colSeps tiedVariancesText,
        ∃ v', getVarianceRounded approxMath tiedVariancesText c 3 = some v' ∧
          F64.le v v' = true) ∧
      (∀ (k' : ℕ) (c : Regexp) (v' : F64), k' < k →
        (colSeps tiedVariancesText)[k']? = some c →
        getVarianceRounded approxMath tiedVariancesText c 3 = some v' →
        F64.lt v v' = true) :=
  getColumnRegex_fallback_lowest approxMath tiedVariancesText
    (by
      intro p c hp hc
      have hseps : colSeps tiedVariancesText = [Regexp.tabs, Regexp.anyWhitespace] := by
        decide!
      have hp3 : p < 3 := hp
      rw [hseps] at hc
      simp only [List.mem_cons, List.mem_singleton, List.not_mem_nil, or_false] at hc
      interval_cases p <;> rcases hc with rfl | rfl <;> decide!)

/-- C7, counterexample: on the text of rows "a b", three times "a\tb", and "a\tb c" no
candidate passes at any pass, the tab pattern (row lengths `[1, 2, 2, 2, 2]`) and the
any-whitespace pattern (row lengths `[2, 2, 2, 2, 3]`) have the same variance 4/25 after 3
applications of the filter, and yet the later one in priority order, the any-whitespace
pattern, is returned: float64 computes 0.16000000000000006 for the first and
0.15999999999999998 for the second. -/
theorem fallback_tie_decided_by_rounding :
    colSeps tiedVariancesText = [Regexp.tabs, Regexp.anyWhitespace] ∧
    testRegexp approxMath tiedVariancesText Regexp.tabs 2 = some false ∧
    testRegexp approxMath tiedVariancesText Regexp.anyWhitespace 2 = some false ∧
    multiPassFrom approxMath tiedVariancesText (colSeps tiedVariancesText) 0 passes =
      some none ∧
    getVariance approxMath tiedVariancesText Regexp.tabs 3 = some (F64.fin (4 / 25)) ∧
    getVariance approxMath tiedVariancesText Regexp.anyWhitespace 3 = some (F64.fin (4 / 25)) ∧
    getVarianceRounded approxMath tiedVariancesText Regexp.tabs 3 =
      some (F64.fin (5764607523034237 / 36028797018963968)) ∧
    getVarianceRounded approxMath tiedVariancesText Regexp.anyWhitespace 3 =
      some (F64.fin (2882303761517117 / 18014398509481984)) ∧
    getColumnRegex approxMath tiedVariancesText = Outcome.returned Regexp.anyWhitespace := by
  decide!

/-- C8 (as amended): for every text that the row separator splits into at least one row,
`getColumnRegex` returns a member of the built-in candidate list: the working list `colSeps`
is not empty, the computed `minVarianceIndex` is below `len(colSeps)`, and the run does not end
in the fatal branch. -/
theorem getColumnRegex_resolves (M : MathLib) (inp : Input) (hrows : inp.rows ≠ []) :
    colSeps inp ≠ [] ∧
    (∀ vs, collectVariances M inp (colSeps inp) = some vs →
      extremaIndex minFunc vs < (colSeps inp).length) ∧
    getColumnRegex M inp ≠ Outcome.fatal ∧
    ∃ re, re ∈ initialColSeps ∧ getColumnRegex M inp = Outcome.returned re := by
  have htot : ∀ c p, ∃ b, testRegexp M inp c p = some b := fun c p => testRegexp_total M hrows c p
  obtain ⟨vs, k, re, v, hvs, hk, hklt, hre, hlow, _⟩ :=
    lowestVariance_spec M hrows (colSeps inp) (colSeps_ne_nil inp)
  refine ⟨colSeps_ne_nil inp, ?_, getColumnRegex_ne_fatal M inp, ?_⟩
  · intro vs' hvs'
    rw [hvs] at hvs'
    rw [← Option.some.inj hvs', ← hk]
    exact hklt
  · rcases multiPassFrom_spec M inp htot (colSeps inp) passes 0 with
      ⟨p, k', re', _, _, hk', hmp, _⟩ | ⟨hmp, _⟩
    · exact ⟨re', colSeps_subset inp re' (List.getElem?_mem hk'), by simp [getColumnRegex, hmp]⟩
    · exact ⟨re, colSeps_subset inp re (List.getElem?_mem hre),
        by simp [getColumnRegex, hmp, hlow]⟩

/-- C8, witness: the text of the single row "abc", on which no candidate matches and the
pre-filter falls back to the full list. -/
theorem getColumnRegex_resolves_witness :
    colSeps (tabbedText ["abc"]) ≠ [] ∧
    (∀ vs, collectVariances approxMath (tabbedText ["abc"]) (colSeps (tabbedText ["abc"])) =
        some vs →
      extremaIndex minFunc vs < (colSeps (tabbedText ["abc"])).length) ∧
    getColumnRegex approxMath (tabbedText ["abc"]) ≠ Outcome.fatal ∧
    ∃ re, re ∈ initialColSeps ∧
      getColumnRegex approxMath (tabbedText ["abc"]) = Outcome.returned re :=
  getColumnRegex_resolves approxMath (tabbedText ["abc"]) (by decide)

/-- C8, counterexample: on a text that the row separator splits into no row at all,
`getColumnRegex` returns no candidate: pass 2 applies `chauvenet` to the empty list of row
lengths, which indexes `data[0]` out of range. -/
theorem getColumnRegex_no_rows_panics :
    (tabbedText []).rows = [] ∧ getColumnRegex approxMath (tabbedText []) = Outcome.panic ∧
    ¬ ∃ re, getColumnRegex approxMath (tabbedText []) = Outcome.returned re := by
  refine ⟨rfl, by decide!, ?_⟩
  rintro ⟨re, hre⟩
  have hp : getColumnRegex approxMath (tabbedText []) = Outcome.panic := by decide!
  rw [hp] at hre
  cases hre

/-! ## C9, C10: outlier rows in the multi-pass search -/

/-- C9 (as amended): for every candidate whose row lengths are uniform except for exactly one
malformed row (`a + b` rows of `c` cells and one row of `c'` cells, `c'` other than `c`),
whenever the outlier filter removes a row from that set, the filtered set has variance 0 and
the consistency test that judges the variance after one application of the filter
(`testRegexp` at tolerance 2) returns true. -/
theorem testRegexp_one_malformed_row (M : MathLib) (inp : Input) (colSep : Regexp)
    (a b : ℕ) (c c' : ℤ) (hc : c' ≠ c)
    (hrows : getRowLengths (SeparateString inp colSep) =
      List.replicate a c ++ c' :: List.replicate b c)
    (hout : chauvenet M (getRowLengths (SeparateString inp colSep)) ≠
      some (getRowLengths (SeparateString inp colSep))) :
    getVariance M inp colSep 1 = some (F64.fin 0) ∧ testRegexp M inp colSep 2 = some true := by
  obtain ⟨r, v, hch, hrne, hr⟩ := chauvenet_oneOff M a b c c' hc _ hrows hout
  exact testRegexp_two_of_filtered_uniform M inp colSep hch hrne hr

/-- C9, witness: seven rows of 3 cells and one row of 2 cells under the tab pattern; the filter
removes the short row. -/
theorem testRegexp_one_malformed_row_witness :
    getVariance approxMath oneShortRowText Regexp.tabs 1 = some (F64.fin 0) ∧
    testRegexp approxMath oneShortRowText Regexp.tabs 2 = some true :=
  testRegexp_one_malformed_row approxMath oneShortRowText Regexp.tabs 7 0 3 2 (by decide)
    (by decide!) (by decide!)

/-- C9, counterexample: two rows of 3 cells and one malformed row of 2 cells under the tab
pattern. The unfiltered variance is 2/9, above 0.1, and `testRegexp` at tolerance 1 returns
false; the filter does not remove the malformed row either (its density is above 1/6), so the
test at tolerance 2 returns false as well. -/
theorem testRegexp_one_malformed_row_of_three :
    getRowLengths (SeparateString (tabbedText ["a\tb\tc", "d\te\tf", "g\th"]) Regexp.tabs) =
      List.replicate 2 3 ++ 2 :: List.replicate 0 3 ∧
    getVariance approxMath (tabbedText ["a\tb\tc", "d\te\tf", "g\th"]) Regexp.tabs 0 =
      some (F64.fin (2 / 9)) ∧
    testRegexp approxMath (tabbedText ["a\tb\tc", "d\te\tf", "g\th"]) Regexp.tabs 1 =
      some false ∧
    chauvenet approxMath [3, 3, 2] = some [3, 3, 2] ∧
    testRegexp approxMath (tabbedText ["a\tb\tc", "d\te\tf", "g\th"]) Regexp.tabs 2 =
      some false := by
  decide!

/-- C10: on the table of row lengths `[3, 3, 3, 3, 3, 3, 3, 3, 1, 9]` the row-length variance of
the tab pattern is 96/25 after no removal, 32/81 after one removal (both above 0.1) and 0 after
two removals, no candidate is consistent at any pass, and the three-pass search returns no
candidate: `testRegexp` at pass 2 judges the variances after 0 and 1 removals only. The tab
pattern is then picked by the lowest-variance fallback. -/
theorem multiPass_misses_two_outliers :
    getRowLengths (SeparateString twoOddRowsText Regexp.tabs) = [3, 3, 3, 3, 3, 3, 3, 3, 1, 9] ∧
    colSeps twoOddRowsText = [Regexp.tabs, Regexp.anyWhitespace] ∧
    getVariance approxMath twoOddRowsText Regexp.tabs 0 = some (F64.fin (96 / 25)) ∧
    getVariance approxMath twoOddRowsText Regexp.tabs 1 = some (F64.fin (32 / 81)) ∧
    getVariance approxMath twoOddRowsText Regexp.tabs 2 = some (F64.fin 0) ∧
    testRegexp approxMath twoOddRowsText Regexp.tabs 2 = some false ∧
    multiPassFrom approxMath twoOddRowsText (colSeps twoOddRowsText) 0 passes = some none ∧
    getColumnRegex approxMath twoOddRowsText = Outcome.returned Regexp.tabs := by
  decide!

/-! ## C12, C13, C14: the degenerate statistics -/

/-- C12: for every non-empty list of integers the variance is `>= 0`, and it is exactly 0 if and
only if all elements of the list are equal. -/
theorem variance_nonneg_zero_iff (data : List ℤ) (hne : data ≠ []) :
    F64.le (F64.fin 0) (variance data) = true ∧
    (variance data = F64.fin 0 ↔ ∀ x ∈ data, ∀ y ∈ data, x = y) := by
  rw [variance_eq hne]
  refine ⟨by simpa [F64.le] using varianceQ_nonneg data, ?_⟩
  rw [← varianceQ_eq_zero_iff hne]
  exact ⟨fun h => F64.fin.inj h, fun h => by rw [h]⟩

/-- C12, witness: the sample `[3, 3, 2]`. -/
theorem variance_nonneg_zero_iff_witness :
    F64.le (F64.fin 0) (variance [3, 3, 2]) = true ∧
    (variance [3, 3, 2] = F64.fin 0 ↔
      ∀ x ∈ ([3, 3, 2] : List ℤ), ∀ y ∈ ([3, 3, 2] : List ℤ), x = y) :=
  variance_nonneg_zero_iff [3, 3, 2] (by decide)

/-- C13 (as amended): the variance of the empty measurement list is NaN, the result of the
division `0/0` in `meanFloat`; the variance of a non-empty list is the finite mean of the squared
differences. -/
theorem variance_nan_iff_empty (data : List ℤ) :
    variance data = if data = [] then F64.nan else F64.fin (varianceQ data) := by
  by_cases h : data = []
  · rw [if_pos h, h]; exact variance_nil
  · rw [if_neg h]; exact variance_eq h

/-- C13, counterexample: the variance of the empty list is NaN, not 0. -/
theorem variance_empty_not_zero :
    variance [] = F64.nan ∧ variance [] ≠ F64.fin 0 := by
  have h : variance [] = F64.nan := by decide!
  exact ⟨h, by rw [h]; simp⟩

/-- C14 (as amended): for every `x` and `mu`, `normalDistribution(x, mu, 0)` is NaN: the
coefficient is `1/0`, the exponential is 0 or NaN, and their product is NaN. -/
theorem normalDistribution_degenerate (M : MathLib) (x mu : F64) :
    normalDistribution M x mu (F64.fin 0) = F64.nan :=
  normalDistribution_sigma_zero M x mu

/-- C14, counterexample: with `sigma = 0` the density at `x = mu = 1` is NaN, not 1, and the
density at `x = 2`, `mu = 1` is NaN, not 0. -/
theorem normalDistribution_degenerate_not_indicator :
    normalDistribution approxMath (F64.fin 1) (F64.fin 1) (F64.fin 0) = F64.nan ∧
    normalDistribution approxMath (F64.fin 1) (F64.fin 1) (F64.fin 0) ≠ F64.fin 1 ∧
    normalDistribution approxMath (F64.fin 2) (F64.fin 1) (F64.fin 0) = F64.nan ∧
    normalDistribution approxMath (F64.fin 2) (F64.fin 1) (F64.fin 0) ≠ F64.fin 0 := by
  decide!

/-! ## C16, C17: defensive cases -/

/-- C16: for either comparison direction (indeed for every comparator), `extremaIndex` on the
empty list returns index 0; the loop over the list is not entered. -/
theorem extremaIndex_empty (comparisonFunc : F64 → F64 → Bool) :
    extremaIndex comparisonFunc [] = 0 ∧ extremaIndex maxFunc [] = 0 ∧
    extremaIndex minFunc [] = 0 :=
  ⟨rfl, rfl, rfl⟩

/-- C17: for every non-empty measurement list of `N` points and every `k`, applying `chauvenet`
`k` times returns (no index is out of range) a non-empty list of between `max(1, N - k)` and
`N` points; so for a text of at least one row `getVariance` returns the finite variance of a
non-empty list. -/
theorem applyChauvenet_stays_nonempty (M : MathLib) (k : ℕ) (data : List ℤ) (hne : data ≠ [])
    (inp : Input) (colSep : Regexp) (hrows : inp.rows ≠ []) :
    (∃ r, applyChauvenet M k data = some r ∧ r ≠ [] ∧
      max 1 (data.length - k) ≤ r.length ∧ r.length ≤ data.length) ∧
    (∃ r, applyChauvenet M k (getRowLengths (SeparateString inp colSep)) = some r ∧ r ≠ [] ∧
      getVariance M inp colSep k = some (F64.fin (varianceQ r))) := by
  refine ⟨applyChauvenet_length M k hne, ?_⟩
  obtain ⟨r, hr, hrne, _⟩ := applyChauvenet_length M k (getRowLengths_ne_nil hrows colSep)
  exact ⟨r, hr, hrne, by simp [getVariance, hr, variance_eq hrne]⟩

/-- C17, witness: three applications to the row lengths `[3, 3, 3, 3, 3, 3, 3, 3, 1, 9]` of the
tab pattern. -/
theorem applyChauvenet_stays_nonempty_witness :
    (∃ r, applyChauvenet approxMath 3 [3, 3, 3, 3, 3, 3, 3, 3, 1, 9] = some r ∧ r ≠ [] ∧
      max 1 (([3, 3, 3, 3, 3, 3, 3, 3, 1, 9] : List ℤ).length - 3) ≤ r.length ∧
      r.length ≤ ([3, 3, 3, 3, 3, 3, 3, 3, 1, 9] : List ℤ).length) ∧
    (∃ r, applyChauvenet approxMath 3 (getRowLengths (SeparateString twoOddRowsText Regexp.tabs)) =
        some r ∧ r ≠ [] ∧
      getVariance approxMath twoOddRowsText Regexp.tabs 3 = some (F64.fin (varianceQ r))) :=
  applyChauvenet_stays_nonempty approxMath 3 [3, 3, 3, 3, 3, 3, 3, 3, 1, 9] (by decide)
    twoOddRowsText Regexp.tabs (by decide)

/-! ## C18, C11, C15: what the multi-pass search judges -/

/-- C18: pass 0 returns no candidate (`testRegexp(re, 0)` is false for every candidate); the
result of the multi-pass search is the same for two runs that agree on the surviving candidates
and on the row-length variances after 0 and after 1 removals; and whenever some surviving
candidate has its unfiltered variance `<= 0.1`, `getColumnRegex` returns the first such
candidate in priority order. -/
theorem multiPass_judges_two_variances (M M' : MathLib) (inp inp' : Input)
    (hseps : colSeps inp = colSeps inp')
    (h0 : ∀ c, getVariance M inp c 0 = getVariance M' inp' c 0)
    (h1 : ∀ c, getVariance M inp c 1 = getVariance M' inp' c 1) :
    (∀ c, testRegexp M inp c 0 = some false) ∧
    firstPassing M inp 0 (colSeps inp) = some none ∧
    multiPassFrom M inp (colSeps inp) 0 passes = multiPassFrom M' inp' (colSeps inp') 0 passes ∧
    ((∃ c ∈ colSeps inp,
        F64.le (variance (getRowLengths (SeparateString inp c))) threshold = true) →
      ∃ k re, (colSeps inp)[k]? = some re ∧
        F64.le (variance (getRowLengths (SeparateString inp re))) threshold = true ∧
        (∀ (k' : ℕ) (c : Regexp), k' < k → (colSeps inp)[k']? = some c →
          F64.le (variance (getRowLengths (SeparateString inp c))) threshold = false) ∧
        getColumnRegex M inp = Outcome.returned re) := by
  refine ⟨fun c => testRegexp_zero M inp c, firstPassing_zero M inp _, ?_, ?_⟩
  · have t1 : ∀ c, testRegexp M inp c 1 = testRegexp M' inp' c 1 := by
      intro c
      have := h0 c
      rw [getVariance_zero, getVariance_zero] at this
      rw [testRegexp_one, testRegexp_one, Option.some.inj this]
    have t2 : ∀ c, testRegexp M inp c 2 = testRegexp M' inp' c 2 := by
      intro c
      rw [testRegexp_two, testRegexp_two, h0 c, h1 c]
    rw [multiPassFrom_three, multiPassFrom_three, ← hseps,
      firstPassing_congr M M' inp inp' 1 t1, firstPassing_congr M M' inp inp' 2 t2]
  · intro h
    obtain ⟨k, re, hk, hle, hbefore⟩ := exists_first_unfiltered inp (colSeps inp) h
    exact ⟨k, re, hk, hle, hbefore, getColumnRegex_of_first_unfiltered M inp k re hk hle hbefore⟩

/-- C18, witness: two texts of three rows of three tab-separated cells, with different cells. -/
theorem multiPass_judges_two_variances_witness :
    (∀ c, testRegexp approxMath (tabbedText ["a\tb\tc", "d\te\tf", "g\th\ti"]) c 0 =
      some false) ∧
    firstPassing approxMath (tabbedText ["a\tb\tc", "d\te\tf", "g\th\ti"]) 0
      (colSeps (tabbedText ["a\tb\tc", "d\te\tf", "g\th\ti"])) = some none ∧
    multiPassFrom approxMath (tabbedText ["a\tb\tc", "d\te\tf", "g\th\ti"])
        (colSeps (tabbedText ["a\tb\tc", "d\te\tf", "g\th\ti"])) 0 passes =
      multiPassFrom approxMath (tabbedText ["x\ty\tz", "p\tq\tr", "u\tv\tw"])
        (colSeps (tabbedText ["x\ty\tz", "p\tq\tr", "u\tv\tw"])) 0 passes ∧
    ((∃ c ∈ colSeps (tabbedText ["a\tb\tc", "d\te\tf", "g\th\ti"]),
        F64.le (variance (getRowLengths
          (SeparateString (tabbedText ["a\tb\tc", "d\te\tf", "g\th\ti"]) c))) threshold = true) →
      ∃ k re, (colSeps (tabbedText ["a\tb\tc", "d\te\tf", "g\th\ti"]))[k]? = some re ∧
        F64.le (variance (getRowLengths
          (SeparateString (tabbedText ["a\tb\tc", "d\te\tf", "g\th\ti"]) re))) threshold = true ∧
        (∀ (k' : ℕ) (c : Regexp), k' < k →
          (colSeps (tabbedText ["a\tb\tc", "d\te\tf", "g\th\ti"]))[k']? = some c →
          F64.le (variance (getRowLengths
            (SeparateString (tabbedText ["a\tb\tc", "d\te\tf", "g\th\ti"]) c))) threshold =
              false) ∧
        getColumnRegex approxMath (tabbedText ["a\tb\tc", "d\te\tf", "g\th\ti"]) =
          Outcome.returned re) :=
  multiPass_judges_two_variances approxMath approxMath
    (tabbedText ["a\tb\tc", "d\te\tf", "g\th\ti"]) (tabbedText ["x\ty\tz", "p\tq\tr", "u\tv\tw"])
    (by decide!) (by intro c; cases c <;> decide!) (by intro c; cases c <;> decide!)

/-- C11 (as amended): for every text of at least one row in which a surviving candidate splits
every row into the same number of columns, that candidate's row-length variance is 0, and the
selector returns, judging the variances without outlier removal, the first surviving candidate
in priority order whose variance is `<= 0.1`: the uniform candidate or one before it. -/
theorem selector_uniform_candidate (M : MathLib) (inp : Input) (c : Regexp) (v : ℤ)
    (hrows : inp.rows ≠ []) (hc : c ∈ colSeps inp)
    (hu : ∀ x ∈ getRowLengths (SeparateString inp c), x = v) :
    getVariance M inp c 0 = some (F64.fin 0) ∧
    ∃ k re, (colSeps inp)[k]? = some re ∧ getColumnRegex M inp = Outcome.returned re ∧
      F64.le (variance (getRowLengths (SeparateString inp re))) threshold = true ∧
      (∀ (k' : ℕ) (c' : Regexp), k' < k → (colSeps inp)[k']? = some c' →
        F64.le (variance (getRowLengths (SeparateString inp c'))) threshold = false) ∧
      (∀ k₁ : ℕ, (colSeps inp)[k₁]? = some c → k ≤ k₁) := by
  have hv : variance (getRowLengths (SeparateString inp c)) = F64.fin 0 :=
    variance_uniform (getRowLengths_ne_nil hrows c) hu
  have hle : F64.le (variance (getRowLengths (SeparateString inp c))) threshold = true := by
    rw [hv]; simp [F64.le, threshold]
  refine ⟨by rw [getVariance_zero, hv], ?_⟩
  obtain ⟨k, re, hk, hle', hbefore⟩ := exists_first_unfiltered inp (colSeps inp) ⟨c, hc, hle⟩
  refine ⟨k, re, hk, getColumnRegex_of_first_unfiltered M inp k re hk hle' hbefore, hle',
    hbefore, ?_⟩
  intro k₁ hk₁
  by_contra hlt
  have := hbefore k₁ c (by omega) hk₁
  rw [hle] at this; cases this

/-- C11, witness: three rows of three tab-separated cells. -/
theorem selector_uniform_candidate_witness :
    getVariance approxMath (tabbedText ["a\tb\tc", "d\te\tf", "g\th\ti"]) Regexp.tabs 0 =
      some (F64.fin 0) ∧
    ∃ k re, (colSeps (tabbedText ["a\tb\tc", "d\te\tf", "g\th\ti"]))[k]? = some re ∧
      getColumnRegex approxMath (tabbedText ["a\tb\tc", "d\te\tf", "g\th\ti"]) =
        Outcome.returned re ∧
      F64.le (variance (getRowLengths
        (SeparateString (tabbedText ["a\tb\tc", "d\te\tf", "g\th\ti"]) re))) threshold = true ∧
      (∀ (k' : ℕ) (c' : Regexp), k' < k →
        (colSeps (tabbedText ["a\tb\tc", "d\te\tf", "g\th\ti"]))[k']? = some c' →
        F64.le (variance (getRowLengths
          (SeparateString (tabbedText ["a\tb\tc", "d\te\tf", "g\th\ti"]) c'))) threshold =
            false) ∧
      (∀ k₁ : ℕ, (colSeps (tabbedText ["a\tb\tc", "d\te\tf", "g\th\ti"]))[k₁]? =
        some Regexp.tabs → k ≤ k₁) :=
  selector_uniform_candidate approxMath (tabbedText ["a\tb\tc", "d\te\tf", "g\th\ti"])
    Regexp.tabs 3 (by decide) (by decide!) (by decide!)

/-- C11, counterexample: in the text of nine rows "a\tb c d" (the last "a\tb\tc d") the
any-whitespace pattern survives and splits every row into 4 columns, yet the selector returns the
tab pattern, whose row lengths are eight times 2 and once 3, of variance 8/81, which is not 0
but within the threshold; and the first pass (pass 0) returns no candidate. -/
theorem selector_prefers_earlier_within_threshold :
    Regexp.anyWhitespace ∈ colSeps mixedWhitespaceText ∧
    getRowLengths (SeparateString mixedWhitespaceText Regexp.anyWhitespace) =
      List.replicate 9 4 ∧
    getRowLengths (SeparateString mixedWhitespaceText Regexp.tabs) =
      [2, 2, 2, 2, 2, 2, 2, 2, 3] ∧
    getVariance approxMath mixedWhitespaceText Regexp.tabs 0 = some (F64.fin (8 / 81)) ∧
    getColumnRegex approxMath mixedWhitespaceText = Outcome.returned Regexp.tabs ∧
    firstPassing approxMath mixedWhitespaceText 0 (colSeps mixedWhitespaceText) = some none := by
  decide!

/-- C15: for every text of exactly one row the selector does not fail: the single measurement
of every candidate has variance 0, every candidate passes the pre-filter and passes the
consistency test at every tolerance from 1 on, and `getColumnRegex` returns the first surviving
candidate in priority order, the tab pattern. -/
theorem getColumnRegex_single_row (M : MathLib) (inp : Input) (row : String)
    (hrow : inp.rows = [row]) :
    (∀ c, getVariance M inp c 0 = some (F64.fin 0)) ∧
    (∀ c k, testRegexp M inp c (k + 1) = some true) ∧
    colSeps inp = initialColSeps ∧
    (colSeps inp)[0]? = some Regexp.tabs ∧
    getColumnRegex M inp = Outcome.returned Regexp.tabs := by
  have hrows : inp.rows ≠ [] := by rw [hrow]; simp
  have hv : ∀ c, variance (getRowLengths (SeparateString inp c)) = F64.fin 0 := by
    intro c
    apply variance_uniform (getRowLengths_ne_nil hrows c) (v := ((inp.splitRow c row).length : ℤ))
    intro x hx
    simpa [getRowLengths, SeparateString, hrow] using hx
  have hle : F64.le (F64.fin 0) threshold = true := by simp [F64.le, threshold]
  have hseps : colSeps inp = initialColSeps := by
    simp [colSeps, initialColSeps, matchesMost, hrow]
  have h0 : (colSeps inp)[0]? = some Regexp.tabs := by rw [hseps]; rfl
  refine ⟨fun c => by rw [getVariance_zero, hv c], ?_, hseps, h0, ?_⟩
  · intro c k
    simp [testRegexp, testRegexpFrom, getVariance_zero, hv c, hle]
  · apply getColumnRegex_of_first_unfiltered M inp 0 Regexp.tabs h0
    · rw [hv]; exact hle
    · intro k' c hk'; exact absurd hk' (Nat.not_lt_zero _)

/-- C15, witness: the text of the single row "a\tb\tc". -/
theorem getColumnRegex_single_row_witness :
    (∀ c, getVariance approxMath (tabbedText ["a\tb\tc"]) c 0 = some (F64.fin 0)) ∧
    (∀ c k, testRegexp approxMath (tabbedText ["a\tb\tc"]) c (k + 1) = some true) ∧
    colSeps (tabbedText ["a\tb\tc"]) = initialColSeps ∧
    (colSeps (tabbedText ["a\tb\tc"]))[0]? = some Regexp.tabs ∧
    getColumnRegex approxMath (tabbedText ["a\tb\tc"]) = Outcome.returned Regexp.tabs :=
  getColumnRegex_single_row approxMath (tabbedText ["a\tb\tc"]) "a\tb\tc" rfl

/-! ## C19: the outlier test on two points -/

/-- C19: for every two-element list `[a, b]`, under a math library whose square root is exact
on `(a - b)^2 / 4` and whose values satisfy `4 e^(-1/2) < sqrt(2 pi) <= 8 e^(-1/2)` (as Go's
do: 2.426 < 2.507 <= 4.852): if `|a - b| >= 2`, `chauvenet` removes the first element and
returns `[b]`; if `|a - b| <= 1`, it returns the list unchanged; and in every case both
elements are exactly one standard deviation `|a - b| / 2` from the mean. -/
theorem chauvenet_two_points (M : MathLib) (a b : ℤ) (hpi : 0 < M.pi)
    (hsqrt : M.sqrtPos (((a : ℚ) - b) ^ 2 / 4) = |(a : ℚ) - b| / 2)
    (hlo : 4 * M.expE (-1 / 2) < M.sqrtPos (2 * M.pi))
    (hhi : M.sqrtPos (2 * M.pi) ≤ 8 * M.expE (-1 / 2)) :
    (2 ≤ |a - b| → chauvenet M [a, b] = some [b]) ∧
    (|a - b| ≤ 1 → chauvenet M [a, b] = some [a, b]) ∧
    meanInt [a, b] = F64.fin (((a : ℚ) + b) / 2) ∧
    stdDev M [a, b] = F64.fin (|(a : ℚ) - b| / 2) ∧
    |((a : ℚ) + b) / 2 - a| = |(a : ℚ) - b| / 2 ∧
    |((a : ℚ) + b) / 2 - b| = |(a : ℚ) - b| / 2 := by
  have hs : 0 < M.sqrtPos (2 * M.pi) := by linarith
  have hcast : ((|a - b| : ℤ) : ℚ) = |(a : ℚ) - b| := by push_cast; rfl
  refine ⟨?_, ?_, ?_, stdDev_pair M a b hsqrt, ?_, ?_⟩
  · intro h2
    have hab : a ≠ b := by
      intro h; rw [h] at h2; simp at h2
    have h2q : (2 : ℚ) ≤ |(a : ℚ) - b| := by rw [← hcast]; exact_mod_cast h2
    have hout : isOutlier M (F64.ofInt a) [a, b] = true := by
      rw [isOutlier_pair M a b hab hpi hs hsqrt, decide_eq_true_eq]
      nlinarith
    rw [chauvenet_pair, hout]; rfl
  · intro h1
    by_cases hab : a = b
    · subst hab
      exact chauvenet_uniform M (List.cons_ne_nil _ _) (v := a) (by simp)
    · have hpos : 0 < |a - b| := abs_pos.mpr (sub_ne_zero.mpr hab)
      have h1' : |a - b| = 1 := by omega
      have h1q : |(a : ℚ) - b| = 1 := by rw [← hcast, h1']; norm_num
      have hout : isOutlier M (F64.ofInt a) [a, b] = false := by
        rw [isOutlier_pair M a b hab hpi hs hsqrt, decide_eq_false_iff_not, h1q]
        linarith
      rw [chauvenet_pair, hout]; rfl
  · rw [meanInt_eq (List.cons_ne_nil _ _), meanQ_pair]
  · have : ((a : ℚ) + b) / 2 - a = -(((a : ℚ) - b) / 2) := by ring
    rw [this, abs_neg, abs_div]; norm_num
  · have : ((a : ℚ) + b) / 2 - b = ((a : ℚ) - b) / 2 := by ring
    rw [this, abs_div]; norm_num

/-- C19, witness: the list `[5, 3]`, of which the first element is removed. -/
theorem chauvenet_two_points_witness :
    (2 ≤ |(5 : ℤ) - 3| → chauvenet approxMath [5, 3] = some [3]) ∧
    (|(5 : ℤ) - 3| ≤ 1 → chauvenet approxMath [5, 3] = some [5, 3]) ∧
    meanInt [5, 3] = F64.fin ((((5 : ℤ) : ℚ) + (3 : ℤ)) / 2) ∧
    stdDev approxMath [5, 3] = F64.fin (|((5 : ℤ) : ℚ) - (3 : ℤ)| / 2) ∧
    |(((5 : ℤ) : ℚ) + (3 : ℤ)) / 2 - (5 : ℤ)| = |((5 : ℤ) : ℚ) - (3 : ℤ)| / 2 ∧
    |(((5 : ℤ) : ℚ) + (3 : ℤ)) / 2 - (3 : ℤ)| = |((5 : ℤ) : ℚ) - (3 : ℤ)| / 2 :=
  chauvenet_two_points approxMath 5 3 (by decide!) (by decide!) (by decide!) (by decide!)

end Tabular
